import Mathlib

/-!
Verification of the pkgrep dependency-materialization core against its
natural-language specification.

The Rust sources are shallowly embedded:
  * Rust `&str`/`String` values are modelled as `List Char` (named `Str`)
    when the code treats them as character sequences, and as `List Nat`
    (byte values < 256) where the code operates on the raw UTF-8 bytes
    (base64 of `normalize_locator`).
  * `PathBuf` values built by repeated `join`/`push` of relative components
    are modelled as the rendered string with components separated by a
    single '/' character.
  * `BTreeMap`/`BTreeSet` are modelled as association lists / lists; the
    claims checked here are order-insensitive (membership and lookups), so
    the insertion order of the association list is not significant.
  * Fallible Rust functions returning `Result`/`Option` are modelled with
    `Except`/`Option`.
-/

/-- Rust string slices, modelled as their character sequence. -/
abbrev Str := List Char

/-- The URL_SAFE base64 alphabet used by `base64::engine::general_purpose::URL_SAFE_NO_PAD`. -/
def b64Alphabet : Str :=
  ("ABCDEFGHIJKLMNOPQRSTUVWXYZabcdefghijklmnopqrstuvwxyz0123456789-_").toList

/-- Sextet-to-character table of the URL-safe base64 alphabet. -/
def b64Char (n : Nat) : Char := b64Alphabet.getD n 'A'

/-- Character-to-sextet inverse of the URL-safe base64 alphabet. -/
def b64Sextet (c : Char) : Option Nat := b64Alphabet.indexOf? c

/-- Base64url no-pad encoding of a byte sequence, as performed by
`URL_SAFE_NO_PAD.encode`: groups of three bytes become four characters, a
two-byte tail becomes three characters, a one-byte tail two characters. -/
def encodeB64 : List Nat → Str
  | [] => []
  | [b1] => [b64Char (b1 / 4), b64Char (b1 % 4 * 16)]
  | [b1, b2] => [b64Char (b1 / 4), b64Char (b1 % 4 * 16 + b2 / 16), b64Char (b2 % 16 * 4)]
  | b1 :: b2 :: b3 :: rest =>
      b64Char (b1 / 4) :: b64Char (b1 % 4 * 16 + b2 / 16) ::
      b64Char (b2 % 16 * 4 + b3 / 64) :: b64Char (b3 % 64) :: encodeB64 rest

/-- Base64url no-pad decoding (`URL_SAFE_NO_PAD.decode`): inverse grouping of
`encodeB64`; a single leftover character is invalid, as are characters outside
the alphabet and non-zero trailing bits. -/
def decodeB64 : Str → Option (List Nat)
  | [] => some []
  | [_] => none
  | [c1, c2] => do
      let s1 ← b64Sextet c1
      let s2 ← b64Sextet c2
      if s2 % 16 = 0 then some [s1 * 4 + s2 / 16] else none
  | [c1, c2, c3] => do
      let s1 ← b64Sextet c1
      let s2 ← b64Sextet c2
      let s3 ← b64Sextet c3
      if s3 % 4 = 0 then some [s1 * 4 + s2 / 16, s2 % 16 * 16 + s3 / 4] else none
  | c1 :: c2 :: c3 :: c4 :: rest => do
      let s1 ← b64Sextet c1
      let s2 ← b64Sextet c2
      let s3 ← b64Sextet c3
      let s4 ← b64Sextet c4
      let tail ← decodeB64 rest
      some ((s1 * 4 + s2 / 16) :: (s2 % 16 * 16 + s3 / 4) :: (s3 % 4 * 64 + s4) :: tail)

/-- UTF-8 encoding of a single character (1 to 4 bytes). -/
def utf8EncodeChar (c : Char) : List Nat :=
  let n := c.toNat
  if n < 128 then [n]
  else if n < 2048 then [192 + n / 64, 128 + n % 64]
  else if n < 65536 then [224 + n / 4096, 128 + n / 64 % 64, 128 + n % 64]
  else [240 + n / 262144, 128 + n / 4096 % 64, 128 + n / 64 % 64, 128 + n % 64]

/-- The UTF-8 byte sequence of a string (Rust `str::as_bytes`). -/
def utf8Bytes (s : Str) : List Nat := s.flatMap utf8EncodeChar

/-- `depspec::Ecosystem`: npm, pypi, git, or an arbitrary other scheme. -/
inductive Ecosystem where
  | npm : Ecosystem
  | pypi : Ecosystem
  | git : Ecosystem
  | other : Str → Ecosystem
deriving DecidableEq

/-- `Ecosystem::as_str`. -/
def Ecosystem.asStr : Ecosystem → Str
  | .npm => "npm".toList
  | .pypi => "pypi".toList
  | .git => "git".toList
  | .other scheme => scheme

/-- `depspec::normalize_locator`: prepend `b64_` to the base64url no-pad
encoding of the locator's UTF-8 bytes. -/
def normalize_locator (raw : Str) : Str :=
  "b64_".toList ++ encodeB64 (utf8Bytes raw)

/-- `depspec::cache_key`: `{ecosystem}/{normalize_locator(locator)}/{version}/{fingerprint}`. -/
def cache_key (ecosystem : Ecosystem) (locator version source_fingerprint : Str) : Str :=
  ecosystem.asStr ++ '/' :: normalize_locator locator ++ '/' :: version
    ++ '/' :: source_fingerprint

/-- `depspec::sanitize_locator_component`: keep ASCII alphanumerics and
`.-_+` (plus `@` when allowed), collapse runs of other characters to a single
dash, trim dashes, and map empty/`.`/`..` results to `_`. -/
def sanitizeLocatorComponent (allowAt : Bool) (raw : Str) : Str :=
  let keep := fun (ch : Char) =>
    ch.isAlphanum && ch.toNat < 128 || ch = '.' || ch = '-' || ch = '_' || ch = '+'
      || (allowAt && ch = '@')
  let step := fun (acc : Str × Bool) (ch : Char) =>
    if keep ch then (acc.1 ++ [ch], false)
    else if acc.2 then acc
    else (acc.1 ++ ['-'], true)
  let out := (raw.foldl step ([], false)).1
  let trimmed := (out.dropWhile (· = '-')).reverse.dropWhile (· = '-') |>.reverse
  if trimmed = [] || trimmed = ['.'] || trimmed = ['.', '.'] then ['_'] else trimmed

/-- Split a string at the first occurrence of a separator character
(Rust `str::split_once`). -/
def splitOnceChar (sep : Char) : Str → Option (Str × Str)
  | [] => none
  | c :: rest =>
      if c = sep then some ([], rest)
      else match splitOnceChar sep rest with
        | some (lhs, rhs) => some (c :: lhs, rhs)
        | none => none

/-- Split a string at the first occurrence of a separator pattern
(Rust `str::split_once` for a multi-character pattern). -/
def splitOnceSeq (sep : Str) : Str → Option (Str × Str)
  | [] => if sep = [] then some ([], []) else none
  | c :: rest =>
      if sep.isPrefixOf (c :: rest) then some ([], (c :: rest).drop sep.length)
      else match splitOnceSeq sep rest with
        | some (lhs, rhs) => some (c :: lhs, rhs)
        | none => none

/-- Split a string at the last occurrence of a separator character
(Rust `str::rsplit_once`). -/
def rsplitOnce (sep : Char) (s : Str) : Option (Str × Str) :=
  match splitOnceChar sep s.reverse with
  | some (revRhs, revLhs) => some (revLhs.reverse, revRhs.reverse)
  | none => none

/-- Rust `str::split` on a character: the list of separated fields. -/
def splitChar (sep : Char) : Str → List Str
  | [] => [[]]
  | c :: rest =>
      if c = sep then [] :: splitChar sep rest
      else match splitChar sep rest with
        | field :: fields => (c :: field) :: fields
        | [] => [[c]]

/-- `depspec::split_scp_like_locator`: for locators without `://`, split on the
first `:` when the left side contains `@`. -/
def split_scp_like_locator (locator : Str) : Option (Str × Str) :=
  if (splitOnceSeq "://".toList locator).isSome then none
  else match splitOnceChar ':' locator with
    | none => none
    | some (lhs, rhs) =>
        if lhs = [] || rhs = [] || !lhs.contains '@' then none
        else some (lhs, rhs)

/-- `depspec::locator_path_components`. -/
def locator_path_components (locator : Str) : List Str :=
  let rawComponents :=
    match splitOnceSeq "://".toList locator with
    | some (_, rest) => splitChar '/' rest
    | none =>
        match split_scp_like_locator locator with
        | some (lhs, rhs) =>
            let host := match rsplitOnce '@' lhs with
              | some (_, host) => host
              | none => lhs
            host :: splitChar '/' rhs
        | none => splitChar '/' locator
  (rawComponents.filter (· ≠ [])).map (sanitizeLocatorComponent false)

/-- `depspec::split_locator_for_link`: all but the last component, and the
last component (or `_` when there are none). -/
def split_locator_for_link (locator : Str) : List Str × Str :=
  let components := locator_path_components locator
  match components.getLast? with
  | none => ([], ['_'])
  | some leaf => (components.dropLast, leaf)

/-- Render a relative `PathBuf` built from a base and pushed components as a
string joined with `/`. -/
def joinPath (base : Str) (components : List Str) : Str :=
  components.foldl (fun acc c => acc ++ '/' :: c) base

/-- `depspec::link_path`:
`.pkgrep/deps/<ecosystem>/<parent components>/<leaf>@<sanitized version>`. -/
def link_path (ecosystem : Ecosystem) (locator version : Str) : Str :=
  joinPath ".pkgrep".toList
    ("deps".toList :: ecosystem.asStr :: (split_locator_for_link locator).1
      ++ [(split_locator_for_link locator).2 ++ '@' :: sanitizeLocatorComponent true version])

/-- `depspec::SourceKind`. -/
inductive SourceKind where
  | registry : SourceKind
  | gitSource : Str → Str → SourceKind
deriving DecidableEq

/-- `depspec::DepSpec`. -/
structure DepSpec where
  ecosystem : Ecosystem
  locator : Str
  version : Option Str
  source_kind : SourceKind
deriving DecidableEq

/-- The distinct error messages produced by `depspec::parse` and
`depspec::parse_git`. -/
inductive ParseError where
  | missingSchemePrefix : ParseError
  | emptyScheme : ParseError
  | emptyLocator : ParseError
  | emptyVersionMarker : ParseError
  | gitMissingRevision : ParseError
  | gitEmptyUrl : ParseError
  | gitEmptyRevision : ParseError
deriving DecidableEq

/-- Final fallback of `split_git_locator_and_revision`: the last `@` with
both sides non-empty. -/
def splitGitLastAt (rest : Str) : Option (Str × Str) :=
  match rsplitOnce '@' rest with
  | some (url, revision) =>
      if url ≠ [] ∧ revision ≠ [] then some (url, revision) else none
  | none => none

/-- Middle rule of `split_git_locator_and_revision`: split right after the
first `.git@` when url and revision are non-empty, else fall through to the
last-`@` rule. -/
def splitGitTail (rest : Str) : Option (Str × Str) :=
  match splitOnceSeq ".git@".toList rest with
  | some (before, after) =>
      if before ++ ".git".toList ≠ [] ∧ after ≠ [] then
        some (before ++ ".git".toList, after)
      else splitGitLastAt rest
  | none => splitGitLastAt rest

/-- `depspec::split_git_locator_and_revision`: try the last `#` with both
sides non-empty; else the first `.git@`, splitting right after the `.git`;
else the last `@` with both sides non-empty. -/
def split_git_locator_and_revision (rest : Str) : Option (Str × Str) :=
  match rsplitOnce '#' rest with
  | some (url, revision) =>
      if url ≠ [] ∧ revision ≠ [] then some (url, revision) else splitGitTail rest
  | none => splitGitTail rest

/-- `depspec::parse_git`. -/
def parse_git (rest : Str) : Except ParseError DepSpec :=
  match split_git_locator_and_revision rest with
  | none => .error .gitMissingRevision
  | some (url, requested_revision) =>
      if url = [] then .error .gitEmptyUrl
      else if requested_revision = [] then .error .gitEmptyRevision
      else .ok ⟨.git, url, some requested_revision, .gitSource url requested_revision⟩

/-- The scheme-to-ecosystem mapping of `depspec::parse`. -/
def ecoOf (scheme : Str) : Ecosystem :=
  if scheme = "npm".toList then Ecosystem.npm
  else if scheme = "pypi".toList then Ecosystem.pypi
  else Ecosystem.other scheme

/-- `depspec::parse`. -/
def parse (input : Str) : Except ParseError DepSpec :=
  match splitOnceChar ':' input with
  | none => .error .missingSchemePrefix
  | some (scheme, rest) =>
      if scheme = [] then .error .emptyScheme
      else if rest = [] then .error .emptyLocator
      else if scheme = "git".toList then parse_git rest
      else
        match rsplitOnce '@' rest with
        | some (loc, ver) =>
            if loc ≠ [] ∧ ver ≠ [] then .ok ⟨ecoOf scheme, loc, some ver, .registry⟩
            else if ver = [] then .error .emptyVersionMarker
            else .ok ⟨ecoOf scheme, rest, none, .registry⟩
        | none => .ok ⟨ecoOf scheme, rest, none, .registry⟩

/-- Rules (b) and (c) of the spec's splitter description: the first `.git@`
when present, else the last `@`, with no non-emptiness side conditions. -/
def splitGitSpecBC (rest : Str) : Option (Str × Str) :=
  match splitOnceSeq ".git@".toList rest with
  | some (before, after) => some (before ++ ".git".toList, after)
  | none => rsplitOnce '@' rest

/-- The spec's reference definition of the git splitter rules of §4.1, used
for the refinement in C2: rule (a) splits at the last `#` when both sides are
non-empty; rule (b) fires whenever rest contains `.git@` and splits right
after the `.git`; rule (c) splits at the last `@`; an absent or empty url or
revision is a parse failure (a git spec must pin a revision). -/
def parse_git_spec (rest : Str) : Option DepSpec :=
  let split :=
    match rsplitOnce '#' rest with
    | some (url, revision) =>
        if url ≠ [] ∧ revision ≠ [] then some (url, revision) else splitGitSpecBC rest
    | none => splitGitSpecBC rest
  match split with
  | some (url, revision) =>
      if url ≠ [] ∧ revision ≠ [] then
        some ⟨.git, url, some revision, .gitSource url revision⟩
      else none
  | none => none

/-- Shared postprocessing of a git split: require a non-empty url and
revision and build the resulting `DepSpec`. -/
def finishGitSplit : Option (Str × Str) → Option DepSpec
  | some (url, revision) =>
      if url ≠ [] ∧ revision ≠ [] then
        some ⟨.git, url, some revision, .gitSource url revision⟩
      else none
  | none => none

/-- Rust `str::strip_prefix`. -/
def stripPrefixStr (pre s : Str) : Option Str :=
  if pre.isPrefixOf s then some (s.drop pre.length) else none

/-- `source::looks_like_plain_semver`: exactly three `.`-separated parts,
all-digit major and minor, and a non-empty all-digit patch before an optional
`-suffix`. -/
def looks_like_plain_semver (input : Str) : Bool :=
  match splitChar '.' input with
  | [major, minor, patchAndSuffix] =>
      let patchCore := match splitOnceChar '-' patchAndSuffix with
        | some (patch, _) => patch
        | none => patchAndSuffix
      major.all Char.isDigit && minor.all Char.isDigit &&
        (!patchCore.isEmpty && patchCore.all Char.isDigit)
  | _ => false

/-- `source::looks_like_semver_revision`: plain semver after stripping an
optional leading `v`. -/
def looks_like_semver_revision (requested_revision : Str) : Bool :=
  looks_like_plain_semver ((stripPrefixStr ['v'] requested_revision).getD requested_revision)

/-- `source::alternate_tag_revision`: the `v`-prefix toggled revision, for
semver-shaped revisions only. -/
def alternate_tag_revision (requested_revision : Str) : Option Str :=
  if !looks_like_semver_revision requested_revision then none
  else
    match stripPrefixStr ['v'] requested_revision with
    | some stripped =>
        if looks_like_plain_semver stripped then some stripped else none
    | none => some ('v' :: requested_revision)

/-- Rust `char::is_ascii_hexdigit`. -/
def isAsciiHexDigit (c : Char) : Bool :=
  c.isDigit || ('a' ≤ c && c ≤ 'f') || ('A' ≤ c && c ≤ 'F')

/-- `source::looks_like_hex_revision`: at least 7 characters, all hex. -/
def looks_like_hex_revision (requested_revision : Str) : Bool :=
  decide (requested_revision.length ≥ 7) && requested_revision.all isAsciiHexDigit

/-- `source::push_unique`. -/
def pushUnique (out : List Str) (value : Str) : List Str :=
  if out.contains value then out else out ++ [value]

/-- `source::targeted_refspecs`. -/
def targeted_refspecs (requested_revision : Str) : List Str :=
  if ("refs/".toList).isPrefixOf requested_revision then
    [requested_revision ++ ':' :: requested_revision, requested_revision]
  else if looks_like_hex_revision requested_revision then
    [requested_revision, "HEAD:refs/heads/pkgrep-head".toList,
      "refs/heads/main:refs/heads/main".toList,
      "refs/heads/master:refs/heads/master".toList]
  else
    let revisions :=
      match alternate_tag_revision requested_revision with
      | some alt => [requested_revision, alt]
      | none => [requested_revision]
    revisions.foldl (fun refspecs revision =>
      pushUnique (pushUnique (pushUnique refspecs
        ("refs/tags/".toList ++ revision ++ ':' :: ("refs/tags/".toList ++ revision)))
        ("refs/heads/".toList ++ revision ++ ':' :: ("refs/heads/".toList ++ revision)))
        revision) []

/-- The `v`-prefix toggle on a revision. -/
def vToggle (r : Str) : Str :=
  if (['v'] : Str).isPrefixOf r then r.drop 1 else 'v' :: r

/-- The tag, head and bare refspec forms of one revision. -/
def refspecTriple (revision : Str) : List Str :=
  ["refs/tags/".toList ++ revision ++ ':' :: ("refs/tags/".toList ++ revision),
    "refs/heads/".toList ++ revision ++ ':' :: ("refs/heads/".toList ++ revision),
    revision]

/-- The spec's reference definition of the targeted refspec candidates: the
two explicit forms for full refs, the four-element list for hex OIDs, and
otherwise the tag/head/bare triples of the revision plus, exactly when the
revision is semver-shaped, of its `v`-prefix toggled variant, in insertion
order with duplicates removed. -/
def targeted_refspecs_spec (requested_revision : Str) : List Str :=
  if ("refs/".toList).isPrefixOf requested_revision then
    [requested_revision ++ ':' :: requested_revision, requested_revision]
  else if looks_like_hex_revision requested_revision then
    [requested_revision, "HEAD:refs/heads/pkgrep-head".toList,
      "refs/heads/main:refs/heads/main".toList,
      "refs/heads/master:refs/heads/master".toList]
  else
    (refspecTriple requested_revision ++
      (if looks_like_semver_revision requested_revision then
        refspecTriple (vToggle requested_revision) else [])).foldl pushUnique []

/-- Lookup in a `BTreeMap<String, String>`, modelled as a key-ordered
association list. -/
def assocGet : List (Str × Str) → Str → Option Str
  | [], _ => none
  | (k2, v) :: rest, k => if k2 = k then some v else assocGet rest k

/-- `registry_resolver::PypiInfo`: the fields the resolver consumes. -/
structure PypiInfo where
  version : Str
  project_urls : Option (List (Str × Str))
  home_page : Option Str
deriving DecidableEq

/-- The preferred `project_urls` keys of `pypi_repository_url`, in priority
order. -/
def pypiPreferredKeys : List Str :=
  ["Source".toList, "Source Code".toList, "Repository".toList,
    "Code".toList, "Homepage".toList]

/-- The preferred-keys loop of `pypi_repository_url`: the first present key
wins. -/
def firstPreferred (project_urls : List (Str × Str)) : List Str → Option Str
  | [] => none
  | k :: ks =>
      match assocGet project_urls k with
      | some url => some url
      | none => firstPreferred project_urls ks

/-- `registry_resolver::pypi_repository_url`: `project_urls` is required
(`as_ref()?`); then the first preferred key, then any (first) value of
`project_urls`, then `info.home_page`. -/
def pypi_repository_url (info : PypiInfo) : Option Str :=
  match info.project_urls with
  | none => none
  | some project_urls =>
      match firstPreferred project_urls pypiPreferredKeys with
      | some url => some url
      | none =>
          match (project_urls.map Prod.snd).head? with
          | some v => some v
          | none => info.home_page

/-- `providers::GitSourceHint`. -/
structure GitSourceHint where
  url : Str
  requested_revision : Str
deriving DecidableEq

/-- `providers::ProviderEcosystem`. -/
inductive ProviderEcosystem where
  | npmEco : ProviderEcosystem
  | pypiEco : ProviderEcosystem
deriving DecidableEq

/-- `providers::NormalizedDependency`. -/
structure NormalizedDependency where
  ecosystem : ProviderEcosystem
  name : Str
  version : Str
  git_hint : Option GitSourceHint
  repository_url : Option Str
deriving DecidableEq

/-- `npm_package_lock::NpmPackageEntry` (deserialized form). -/
structure NpmPackageEntry where
  version : Option Str
  resolved : Option Str
  dependencies : Option (List (Str × Str))
deriving DecidableEq

/-- `npm_package_lock::NpmTopLevelDependency`: an object with optional
version and resolved fields, or a bare version string. -/
inductive NpmTopLevelDependency where
  | object : Option Str → Option Str → NpmTopLevelDependency
  | strDep : Str → NpmTopLevelDependency
deriving DecidableEq

/-- `NpmTopLevelDependency::version`. -/
def NpmTopLevelDependency.versionF : NpmTopLevelDependency → Option Str
  | .object v _ => v
  | .strDep raw => some raw

/-- `NpmTopLevelDependency::resolved`. -/
def NpmTopLevelDependency.resolvedF : NpmTopLevelDependency → Option Str
  | .object _ r => r
  | .strDep _ => none

/-- `NpmTopLevelDependency::raw_value`. -/
def NpmTopLevelDependency.rawValue : NpmTopLevelDependency → Option Str
  | .object _ _ => none
  | .strDep raw => some raw

/-- `npm_package_lock::NpmPackageLock` (deserialized form); the maps are
modelled as association lists in the key order serde's `BTreeMap` iterates. -/
structure NpmPackageLock where
  packages : Option (List (Str × NpmPackageEntry))
  dependencies : Option (List (Str × NpmTopLevelDependency))
deriving DecidableEq

/-- The `BTreeMap<(String, String), NormalizedDependency>` accumulator,
modelled as an association list with unique keys. -/
abbrev DepsMap := List ((Str × Str) × NormalizedDependency)

/-- `BTreeMap::get`. -/
def dmGet : DepsMap → Str × Str → Option NormalizedDependency
  | [], _ => none
  | (k2, v) :: rest, k => if k2 = k then some v else dmGet rest k

/-- `BTreeMap::insert`: replace in place, or add a new binding. -/
def dmInsert : DepsMap → Str × Str → NormalizedDependency → DepsMap
  | [], k, v => [(k, v)]
  | (k2, v2) :: rest, k, v =>
      if k2 = k then (k, v) :: rest else (k2, v2) :: dmInsert rest k v

/-- `BTreeMap::entry(key).or_insert(dep)`: insert only when absent. -/
def dmEntryOrInsert (m : DepsMap) (k : Str × Str) (v : NormalizedDependency) : DepsMap :=
  match dmGet m k with
  | some _ => m
  | none => dmInsert m k v

/-- `npm_package_lock::merge_dependency`: keep an existing entry that has a
git hint; otherwise insert the candidate. -/
def merge_dependency (m : DepsMap) (candidate : NormalizedDependency) : DepsMap :=
  let k := (candidate.name, candidate.version)
  match dmGet m k with
  | some existing => if existing.git_hint.isSome then m else dmInsert m k candidate
  | none => dmInsert m k candidate

/-- Split at the last occurrence of a separator pattern. -/
def rsplitOnceSeq (sep s : Str) : Option (Str × Str) :=
  match splitOnceSeq sep.reverse s.reverse with
  | some (revAfter, revBefore) => some (revBefore.reverse, revAfter.reverse)
  | none => none

/-- `npm_package_lock::package_name_from_lock_key`: the substring after the
last `node_modules/`. -/
def package_name_from_lock_key (key : Str) : Option Str :=
  match rsplitOnceSeq "node_modules/".toList key with
  | some (_, after) => some after
  | none => none

/-- `npm_package_lock::parse_git_hint_from_npm_resolved`: strip `git+`, split
at the last `#`, require non-empty url and revision. -/
def parse_git_hint_from_npm_resolved (resolved : Str) : Option GitSourceHint :=
  let trimmed := (stripPrefixStr "git+".toList resolved).getD resolved
  match rsplitOnce '#' trimmed with
  | none => none
  | some (url, revision) =>
      if url = [] ∨ revision = [] then none else some ⟨url, revision⟩

/-- The root-entry branch of the `packages` loop: copy the root
`dependencies` map as name-to-version pairs without overwriting. -/
def copyRootDeps (deps : DepsMap) : List (Str × Str) → DepsMap :=
  List.foldl (fun m nv =>
    dmEntryOrInsert m (nv.1, nv.2) ⟨.npmEco, nv.1, nv.2, none, none⟩) deps

/-- The `packages` loop of `npm_package_lock::parse`. -/
def processPackages : DepsMap → List (Str × NpmPackageEntry) → DepsMap
  | deps, [] => deps
  | deps, (key, entry) :: rest =>
      let deps2 :=
        if key = [] then
          match entry.dependencies with
          | some rootDeps => copyRootDeps deps rootDeps
          | none => deps
        else
          match entry.version with
          | none => deps
          | some version =>
              match package_name_from_lock_key key with
              | none => deps
              | some name =>
                  merge_dependency deps
                    ⟨.npmEco, name, version,
                      entry.resolved.bind parse_git_hint_from_npm_resolved, none⟩
      processPackages deps2 rest

/-- The lockfile-v1 fallback loop over the top-level `dependencies` map. -/
def processTopLevel (deps : DepsMap) : List (Str × NpmTopLevelDependency) → DepsMap :=
  List.foldl (fun m nd =>
    let version := ((nd.2.versionF).orElse (fun _ => nd.2.rawValue)).getD []
    if version = [] then m
    else
      merge_dependency m
        ⟨.npmEco, nd.1, version,
          nd.2.resolvedF.bind parse_git_hint_from_npm_resolved, none⟩) deps

/-- `npm_package_lock::parse` (after deserialization): process the `packages`
mapping, then fall back to the top-level `dependencies` map only when nothing
was produced. The returned value is the de-duplication map; Rust returns its
values in key order. -/
def npmLockParse (lock : NpmPackageLock) : DepsMap :=
  let deps :=
    match lock.packages with
    | some packages => processPackages [] packages
    | none => []
  if deps = [] then
    match lock.dependencies with
    | some topLevel => processTopLevel deps topLevel
    | none => deps
  else deps

/-- The deps-map entry type is inhabited (used by simp instance searches). -/
instance : Nonempty ((Str × Str) × NormalizedDependency) :=
  ⟨(([], []), ⟨.npmEco, [], [], none, none⟩)⟩

/-- Outcome of `fs::remove_dir_all`, supplied by the environment. -/
inductive RemoveResult where
  | okR : RemoveResult
  | notFoundR : RemoveResult
  | otherErr : RemoveResult
deriving DecidableEq

/-- Errors of `cache::run_cache_clean`. -/
inductive CleanError where
  | refuseRoot : CleanError
  | removeFailed : CleanError
deriving DecidableEq

/-- The cache-dir resolution of `run_cache_clean`: an absolute configured
path wins, otherwise it is joined under the working directory. -/
def resolvedCacheDir (cwd cache_dir : Str) : Str :=
  if (['/'] : Str).isPrefixOf cache_dir then cache_dir else cwd ++ '/' :: cache_dir

/-- `cache::run_cache_clean`: the result paired with the list of paths on
which a filesystem deletion was attempted, in order. Without `yes` it is a
no-op; with `yes` it refuses the root directory before touching the
filesystem, and otherwise runs `remove_dir_all`, treating not-found as
success. -/
def run_cache_clean (cwd cache_dir : Str) (y : Bool) (remove : RemoveResult) :
    Except CleanError Unit × List Str :=
  let dir := resolvedCacheDir cwd cache_dir
  if !y then (Except.ok (), [])
  else if dir = "/".toList then (Except.error .refuseRoot, [])
  else
    match remove with
    | .okR => (Except.ok (), [dir])
    | .notFoundR => (Except.ok (), [dir])
    | .otherErr => (Except.error .removeFailed, [dir])

/-- `source::GitPullTarget`. -/
structure GitPullTarget where
  ecosystem : Ecosystem
  locator : Str
  git_url : Str
  requested_revision : Str
deriving DecidableEq

/-- `remote_cache::RemoteSourceMetadata`. -/
structure RemoteSourceMetadata where
  schema_version : Nat
  ecosystem : Str
  locator : Str
  git_url : Str
  requested_revision : Str
  source_fingerprint : Str
  archive_object_key : Str
deriving DecidableEq

/-- The distinct failures of `remote_cache::validate_metadata`, in check
order. -/
inductive MetadataError where
  | schemaVersion : MetadataError
  | ecosystemMismatch : MetadataError
  | locatorMismatch : MetadataError
  | revisionMismatch : MetadataError
  | emptyFingerprint : MetadataError
  | emptyArchiveKey : MetadataError
deriving DecidableEq

/-- `remote_cache::validate_metadata`. -/
def validate_metadata (target : GitPullTarget) (metadata : RemoteSourceMetadata) :
    Except MetadataError Unit :=
  if metadata.schema_version ≠ 1 then .error .schemaVersion
  else if metadata.ecosystem ≠ target.ecosystem.asStr then .error .ecosystemMismatch
  else if metadata.locator ≠ target.locator then .error .locatorMismatch
  else if metadata.requested_revision ≠ target.requested_revision then
    .error .revisionMismatch
  else if metadata.source_fingerprint = [] then .error .emptyFingerprint
  else if metadata.archive_object_key = [] then .error .emptyArchiveKey
  else .ok ()

/-- Result of reading and parsing the metadata object. -/
inductive MetaRead where
  | notFound : MetaRead
  | readErr : MetaRead
  | parseErr : MetaRead
  | okMeta : RemoteSourceMetadata → MetaRead
deriving DecidableEq

/-- Result of reading the archive object. -/
inductive ArchiveRead where
  | okArchive : ArchiveRead
  | archiveErr : ArchiveRead
deriving DecidableEq

/-- The environment of one `hydrate_git_source` call: object-store responses
and filesystem facts. -/
structure HydrateEnv where
  metaRead : MetaRead
  checkoutExists : Bool
  initialSymlink : Option Str
  archiveRead : ArchiveRead
  unpackOk : Bool
  linkOk : Bool
deriving DecidableEq

/-- Errors of `hydrate_git_source`. -/
inductive HydrateError where
  | metaReadError : HydrateError
  | metaParseError : HydrateError
  | invalidMetadata : MetadataError → HydrateError
  | archiveReadError : HydrateError
  | refuseExistingCheckout : HydrateError
  | unpackError : HydrateError
  | linkError : HydrateError
deriving DecidableEq

/-- `remote_cache::HydrateOutcome`, carrying the checkout path. -/
inductive HydrateOutcomeK where
  | hydrated : Str → HydrateOutcomeK
  | alreadyPresent : Str → HydrateOutcomeK
  | notFoundOutcome : HydrateOutcomeK
deriving DecidableEq

/-- Filesystem state after a hydrate call: whether the checkout directory
exists and what the project symlink points at. -/
structure FsState where
  checkoutDir : Bool
  symlink : Option Str
deriving DecidableEq

/-- `remote_cache::unpack_archive_into_dir`: refuse an existing directory;
else create it and untar, removing the partial directory on failure. The
second component is whether the directory exists afterwards. -/
def unpack_archive_into_dir (dirExists unpackOk : Bool) :
    Except HydrateError Unit × Bool :=
  if dirExists then (.error .refuseExistingCheckout, true)
  else if unpackOk then (.ok (), true)
  else (.error .unpackError, false)

/-- `remote_cache::RemoteCacheClient::hydrate_git_source`, over the abstract
environment: read and validate metadata, compute the checkout path from the
metadata fingerprint, then either refresh the symlink (already present) or
fetch and unpack the archive before linking. -/
def hydrate_git_source (env : HydrateEnv) (target : GitPullTarget) :
    Except HydrateError HydrateOutcomeK × FsState :=
  let initial : FsState := ⟨env.checkoutExists, env.initialSymlink⟩
  match env.metaRead with
  | .notFound => (.ok .notFoundOutcome, initial)
  | .readErr => (.error .metaReadError, initial)
  | .parseErr => (.error .metaParseError, initial)
  | .okMeta m =>
      match validate_metadata target m with
      | .error e => (.error (.invalidMetadata e), initial)
      | .ok _ =>
          let ckey := cache_key target.ecosystem target.locator
            target.requested_revision m.source_fingerprint
          let cpath := "sources/".toList ++ ckey
          if env.checkoutExists then
            if env.linkOk then (.ok (.alreadyPresent cpath), ⟨true, some cpath⟩)
            else (.error .linkError, ⟨true, env.initialSymlink⟩)
          else
            match env.archiveRead with
            | .archiveErr => (.error .archiveReadError, initial)
            | .okArchive =>
                match unpack_archive_into_dir env.checkoutExists env.unpackOk with
                | (.error e, dirAfter) => (.error e, ⟨dirAfter, env.initialSymlink⟩)
                | (.ok _, dirAfter) =>
                    if env.linkOk then (.ok (.hydrated cpath), ⟨dirAfter, some cpath⟩)
                    else (.error .linkError, ⟨dirAfter, env.initialSymlink⟩)

/-- Continuation handling for a two-byte sequence lead byte. -/
def twoByteCont (b : Nat) : List Nat → Option (Nat × List Nat)
  | b2 :: rest2 =>
      if 128 ≤ b2 ∧ b2 < 192 then some ((b - 192) * 64 + (b2 - 128), rest2) else none
  | [] => none

/-- Continuation handling for a three-byte sequence lead byte, with the
E0/ED special continuation ranges excluding overlong forms and surrogates. -/
def threeByteCont (b : Nat) : List Nat → Option (Nat × List Nat)
  | b2 :: b3 :: rest3 =>
      if (if b = 224 then 160 ≤ b2 ∧ b2 < 192
          else if b = 237 then 128 ≤ b2 ∧ b2 < 160
          else 128 ≤ b2 ∧ b2 < 192) ∧ 128 ≤ b3 ∧ b3 < 192 then
        some ((b - 224) * 4096 + (b2 - 128) * 64 + (b3 - 128), rest3)
      else none
  | _ => none

/-- Continuation handling for a four-byte sequence lead byte, with the
F0/F4 special continuation ranges excluding overlong and out-of-range forms. -/
def fourByteCont (b : Nat) : List Nat → Option (Nat × List Nat)
  | b2 :: b3 :: b4 :: rest4 =>
      if (if b = 240 then 144 ≤ b2 ∧ b2 < 192
          else if b = 244 then 128 ≤ b2 ∧ b2 < 144
          else 128 ≤ b2 ∧ b2 < 192) ∧ (128 ≤ b3 ∧ b3 < 192) ∧
          (128 ≤ b4 ∧ b4 < 192) then
        some ((b - 240) * 262144 + (b2 - 128) * 4096 + (b3 - 128) * 64 + (b4 - 128), rest4)
      else none
  | _ => none

/-- Decode one scalar value off the front of a byte stream: strict UTF-8 with
the standard lead/continuation ranges (RFC 3629 table). -/
def utf8DecodeChar : List Nat → Option (Nat × List Nat)
  | [] => none
  | b :: rest =>
      if b < 128 then some (b, rest)
      else if 194 ≤ b ∧ b ≤ 223 then twoByteCont b rest
      else if 224 ≤ b ∧ b ≤ 239 then threeByteCont b rest
      else if 240 ≤ b ∧ b ≤ 244 then fourByteCont b rest
      else none

/-- Iterated decoding; each step consumes at least one byte, so fuel equal to
the stream length always suffices. -/
def utf8DecodeFuel : Nat → List Nat → Option Str
  | _, [] => some []
  | 0, _ :: _ => none
  | fuel + 1, b :: rest =>
      (utf8DecodeChar (b :: rest)).bind
        (fun p => Option.map (fun s => Char.ofNat p.1 :: s) (utf8DecodeFuel fuel p.2))

/-- `String::from_utf8`: decode a whole byte stream, rejecting overlong
forms, surrogates and out-of-range sequences. -/
def utf8Decode (l : List Nat) : Option Str := utf8DecodeFuel l.length l

/-- `depspec::denormalize_locator`: strip the `b64_` prefix, base64url-decode,
then re-validate as UTF-8. -/
def denormalize_locator (normalized : Str) : Option Str := do
  let encoded ← stripPrefixStr ("b64_".toList) normalized
  let bytes ← decodeB64 encoded
  utf8Decode bytes

/-- A well-formed path segment: non-empty, slash-free, and not `.`. -/
def wfSeg (s : Str) : Prop := s ≠ [] ∧ (∀ c ∈ s, c ≠ '/') ∧ s ≠ ['.']

/-- A clean relative path: every `/`-separated segment is non-empty and not
`.`, so `Path::components` preserves it verbatim. Single segments qualify, as
do multi-segment revisions such as `refs/heads/main`. -/
def pathClean (s : Str) : Prop :=
  ∀ seg ∈ splitChar '/' s, seg ≠ [] ∧ seg ≠ ['.']

/-- `Vec::join("/")` on path components. -/
def joinSlash : List Str → Str
  | [] => []
  | [x] => x
  | x :: y :: xs => x ++ '/' :: joinSlash (y :: xs)

/-- `Path::components` on a relative path rendered as a string: split on `/`,
drop empty segments, normalize away `.` segments except in leading position. -/
def pathComponents (rel : Str) : List Str :=
  match splitChar '/' rel with
  | [] => []
  | first :: rest =>
      let tailComps := rest.filter (fun seg => ¬ (seg = [] ∨ seg = ['.']))
      if first = [] then tailComps else first :: tailComps

/-- `index::cache_key_from_checkout_path` applied to a checkout path under the
sources root: the path relative to the sources root, re-joined from its
components. -/
def cache_key_from_checkout_path (rel : Str) : Option Str :=
  match pathComponents rel with
  | [] => none
  | c :: cs => some (joinSlash (c :: cs))

/-- Provenance of an index entry: its cache key and link path come from one
target whose ecosystem string and fingerprint are single path segments and
whose revision is a clean relative path. -/
def WfKeyLink (k l : Str) : Prop :=
  ∃ (e : Ecosystem) (loc v f : Str),
    wfSeg e.asStr ∧ pathClean v ∧ wfSeg f ∧
    k = cache_key e loc v f ∧ l = link_path e loc v

/-- A pull target as carried through `pull` (ecosystem, locator, git URL and
requested revision). -/
structure C1Target where
  ecosystem : Ecosystem
  locator : Str
  gitUrl : Str
  revision : Str

/-- `index::dep_spec`: `git:{git_url}@{requested_revision}`. -/
def depSpecOf (t : C1Target) : Str :=
  "git:".toList ++ t.gitUrl ++ '@' :: t.revision

/-- The two on-disk indexes plus the project link symlinks: project manifests
keyed by project root then dep spec (link path, cache key); the global ref
index keyed by cache key (referencing project roots); and for each project
and relative link path, the cache key of the checkout the symlink points to. -/
structure C1State where
  manifests : Str → Str → Option (Str × Str)
  global : Str → Option (List Str)
  links : Str → Str → Option Str

/-- Both indexes start empty and no project links exist. -/
def emptyC1State : C1State :=
  ⟨fun _ _ => none, fun _ => none, fun _ _ => none⟩

/-- `BTreeSet::insert`. -/
def insertProj (p : Str) (ps : List Str) : List Str :=
  if p ∈ ps then ps else p :: ps

/-- `BTreeSet::remove`. -/
def removeProj (p : Str) (ps : List Str) : List Str :=
  ps.filter (fun q => ¬ (q = p))

/-- `index::record_link`: upsert the manifest entry under the dep spec and
add the project to the global entry for the cache key (creating it if
needed). -/
def record_link (cwd : Str) (t : C1Target) (ck lk : Str) (st : C1State) : C1State :=
  { manifests := fun q d =>
      if q = cwd then
        if d = depSpecOf t then some (lk, ck) else st.manifests q d
      else st.manifests q d
    global := fun k =>
      if k = ck then
        some (insertProj cwd (match st.global ck with | some ps => ps | none => []))
      else st.global k
    links := st.links }

/-- A successful `pull` of one target: materialization links the project link
path to the checkout for the target's cache key (replacing any previous
symlink), then `record_link` updates both indexes. -/
def pullOp (p : Str) (t : C1Target) (fp : Str) (st : C1State) : C1State :=
  let ck := cache_key t.ecosystem t.locator t.revision fp
  let lk := link_path t.ecosystem t.locator t.revision
  let st1 : C1State :=
    { st with links := fun q l => if q = p ∧ l = lk then some ck else st.links q l }
  record_link p t ck lk st1

/-- A successful `remove` of one link path: if a symlink exists there it is
removed and `record_unlink` runs, dropping manifest entries recorded at that
link path and dropping the project from the global entry for the cache key
re-derived from the symlink target (removing the entry when its project set
empties); with no symlink nothing is recorded. -/
def removeOp (p : Str) (l : Str) (st : C1State) : C1State :=
  match st.links p l with
  | none => st
  | some kt =>
      let st1 : C1State :=
        { manifests := fun q d =>
            if q = p then
              match st.manifests q d with
              | some e => if e.1 = l then none else some e
              | none => none
            else st.manifests q d
          global := st.global
          links := fun q l2 => if q = p ∧ l2 = l then none else st.links q l2 }
      match cache_key_from_checkout_path kt with
      | none => st1
      | some ck =>
          { st1 with global := fun k =>
              if k = ck then
                match st1.global ck with
                | some ps =>
                    let ps2 := removeProj p ps
                    if ps2 = [] then none else some ps2
                | none => none
              else st1.global k }

/-- The operations of the index state machine. -/
inductive C1Op where
  | pull (p : Str) (t : C1Target) (fp : Str)
  | remove (p : Str) (l : Str)

/-- One step of the index state machine. -/
def applyOp : C1Op → C1State → C1State
  | .pull p t fp, st => pullOp p t fp st
  | .remove p l, st => removeOp p l st

/-- Run a sequence of operations. -/
def applyOps (ops : List C1Op) (st : C1State) : C1State :=
  ops.foldl (fun s o => applyOp o s) st

/-- Well-formed operations: a pulled ecosystem name and fingerprint are
single path segments (true of git/npm/pypi and of 40-hex fingerprints), and a
pulled revision is a clean relative path (true of branch and tag names and of
full refs such as `refs/heads/main` or `refs/tags/v1.2.3`). -/
def wfOp : C1Op → Prop
  | .pull _ t fp => wfSeg t.ecosystem.asStr ∧ pathClean t.revision ∧ wfSeg fp
  | .remove _ _ => True

/-- Invariant, manifest half: every manifest entry has well-formed provenance
and its project is recorded in the global entry for its cache key. -/
def ManifestInv (st : C1State) : Prop :=
  ∀ p d e, st.manifests p d = some e →
    WfKeyLink e.2 e.1 ∧ ∃ ps, st.global e.2 = some ps ∧ p ∈ ps

/-- Invariant, link half: every project symlink points at a checkout for a
well-formed cache key whose link path is the symlink's own location. -/
def LinksInv (st : C1State) : Prop :=
  ∀ p l k, st.links p l = some k → WfKeyLink k l

/-- The combined index invariant. -/
def C1Inv (st : C1State) : Prop := ManifestInv st ∧ LinksInv st

/-- Cancellation of a shared suffix of lists. -/
theorem appendRightCancel {α : Type} {a b s : List α} (h : a ++ s = b ++ s) : a = b := by
  have hlen : a.length = b.length := by
    have := congrArg List.length h
    simp [List.length_append] at this
    exact this
  have := congrArg (fun l => List.take a.length l) h
  simpa [List.take_left, hlen, List.take_left] using this

/-- Cancellation of a shared prefix of lists. -/
theorem appendLeftCancel {α : Type} {p a b : List α} (h : p ++ a = p ++ b) : a = b := by
  induction p with
  | nil => simpa using h
  | cons c cs ih =>
      simp only [List.cons_append, List.cons.injEq] at h
      exact ih h.2

/-- Unfolding `joinPath` one component at a time. -/
theorem joinPath_cons (a c : Str) (cs : List Str) :
    joinPath a (c :: cs) = joinPath (a ++ '/' :: c) cs := rfl

/-- `joinPath` with a fixed component list is injective in the base path. -/
theorem joinPathInj (cs : List Str) : ∀ {a b : Str},
    joinPath a cs = joinPath b cs → a = b := by
  induction cs with
  | nil => intro a b h; simpa [joinPath] using h
  | cons c cs ih =>
      intro a b h
      rw [joinPath_cons, joinPath_cons] at h
      exact appendRightCancel (ih h)

/-- C7 fails as stated: the ecosystems `Npm` and `Other("npm")` are distinct
values of the full `Ecosystem` type, yet `as_str` renders both as `npm`, so
`cache_key` (and `link_path`) agree on them. -/
theorem C7_counterexample :
    (Ecosystem.npm ≠ Ecosystem.other "npm".toList) ∧
    cache_key Ecosystem.npm "react".toList "18.3.1".toList "f0".toList =
      cache_key (Ecosystem.other "npm".toList) "react".toList "18.3.1".toList "f0".toList ∧
    link_path Ecosystem.npm "react".toList "18.3.1".toList =
      link_path (Ecosystem.other "npm".toList) "react".toList "18.3.1".toList := by
  refine ⟨by decide, rfl, rfl⟩

/-- C7, amended: for ecosystems whose `as_str` forms differ (in particular all
distinct pairs among npm, pypi, git), `cache_key` and `link_path` differ for
every shared locator, version and fingerprint. -/
theorem C7_cache_key_link_path_namespaced (e1 e2 : Ecosystem)
    (h : e1.asStr ≠ e2.asStr) (locator version fingerprint : Str) :
    cache_key e1 locator version fingerprint ≠ cache_key e2 locator version fingerprint ∧
    link_path e1 locator version ≠ link_path e2 locator version := by
  constructor
  · intro hk
    simp only [cache_key] at hk
    exact h (appendRightCancel (appendRightCancel (appendRightCancel hk)))
  · intro hl
    have hl2 : joinPath (".pkgrep".toList ++ '/' :: "deps".toList ++ '/' :: e1.asStr)
        ((split_locator_for_link locator).1
          ++ [(split_locator_for_link locator).2
                ++ '@' :: sanitizeLocatorComponent true version]) =
      joinPath (".pkgrep".toList ++ '/' :: "deps".toList ++ '/' :: e2.asStr)
        ((split_locator_for_link locator).1
          ++ [(split_locator_for_link locator).2
                ++ '@' :: sanitizeLocatorComponent true version]) := hl
    have h1 := joinPathInj _ hl2
    have h2 := appendLeftCancel h1
    exact h (by simpa using h2)

/-- Witness for the amended C7 at npm versus pypi. -/
theorem C7_cache_key_link_path_namespaced_witness :
    ("npm".toList ≠ "pypi".toList) ∧
    cache_key Ecosystem.npm "react".toList "18.3.1".toList "f0".toList ≠
      cache_key Ecosystem.pypi "react".toList "18.3.1".toList "f0".toList ∧
    link_path Ecosystem.npm "react".toList "18.3.1".toList ≠
      link_path Ecosystem.pypi "react".toList "18.3.1".toList := by
  refine ⟨by decide, ?_⟩
  exact C7_cache_key_link_path_namespaced Ecosystem.npm Ecosystem.pypi (by decide)
    "react".toList "18.3.1".toList "f0".toList

/-- A character split finds nothing exactly when the character is absent. -/
theorem splitOnceChar_eq_none {c : Char} : ∀ {s : Str}, c ∉ s →
    splitOnceChar c s = none := by
  intro s
  induction s with
  | nil => intro _; rfl
  | cons x xs ih =>
      intro hmem
      have hx : ¬ x = c := fun hxc => hmem (hxc ▸ List.mem_cons_self x xs)
      have hxs : c ∉ xs := fun hc => hmem (List.mem_cons_of_mem x hc)
      simp [splitOnceChar, hx, ih hxs]

/-- A character split at the first separator after a separator-free prefix. -/
theorem splitOnceChar_append {c : Char} : ∀ {a : Str} (b : Str), c ∉ a →
    splitOnceChar c (a ++ c :: b) = some (a, b) := by
  intro a
  induction a with
  | nil => intro b _; simp [splitOnceChar]
  | cons x xs ih =>
      intro b hmem
      have hx : ¬ x = c := fun hxc => hmem (hxc ▸ List.mem_cons_self x xs)
      have hxs : c ∉ xs := fun hc => hmem (List.mem_cons_of_mem x hc)
      simp [splitOnceChar, hx, ih b hxs]

/-- `rsplitOnce` finds nothing exactly when the character is absent. -/
theorem rsplitOnce_eq_none {c : Char} {s : Str} (h : c ∉ s) :
    rsplitOnce c s = none := by
  have : c ∉ s.reverse := by simpa using h
  simp [rsplitOnce, splitOnceChar_eq_none this]

/-- `rsplitOnce` splits at the last separator. -/
theorem rsplitOnce_append {c : Char} {a : Str} (b : Str) (h : c ∉ b) :
    rsplitOnce c (a ++ c :: b) = some (a, b) := by
  have hrev : c ∉ b.reverse := by simpa using h
  have : (a ++ c :: b).reverse = b.reverse ++ c :: a.reverse := by
    simp
  simp [rsplitOnce, this, splitOnceChar_append a.reverse hrev]

/-- Extract componentwise equalities from equal optional pairs. -/
theorem somePairInj {α β : Type} {a c : α} {b d : β}
    (h : (some (a, b) : Option (α × β)) = some (c, d)) : a = c ∧ b = d := by
  injection h with hp
  exact Prod.mk.inj hp

/-- One-step unfolding of `splitOnceSeq` on a cons cell. -/
theorem splitOnceSeq_cons (sep : Str) (x : Char) (xs : Str) :
    splitOnceSeq sep (x :: xs) =
      if sep.isPrefixOf (x :: xs) then some ([], (x :: xs).drop sep.length)
      else
        match splitOnceSeq sep xs with
        | some (lhs, rhs) => some (x :: lhs, rhs)
        | none => none := rfl

/-- A successful sequence split decomposes the input around the separator. -/
theorem splitOnceSeq_eq_some {sep : Str} : ∀ {s lhs rhs : Str},
    splitOnceSeq sep s = some (lhs, rhs) → s = lhs ++ sep ++ rhs := by
  intro s
  induction s with
  | nil =>
      intro lhs rhs h
      by_cases hsep : sep = []
      · subst hsep
        have h2 : (some (([] : Str), ([] : Str)) : Option (Str × Str)) = some (lhs, rhs) := h
        obtain ⟨hl, hr⟩ := somePairInj h2
        subst hl
        subst hr
        rfl
      · simp [splitOnceSeq, hsep] at h
  | cons x xs ih =>
      intro lhs rhs h
      rw [splitOnceSeq_cons] at h
      by_cases hpre : sep.isPrefixOf (x :: xs)
      · rw [if_pos hpre] at h
        obtain ⟨hl, hr⟩ := somePairInj h
        subst hl
        subst hr
        obtain ⟨t, ht⟩ := List.isPrefixOf_iff_prefix.mp hpre
        have hdrop : (x :: xs).drop sep.length = t := by
          rw [← ht]
          exact List.drop_left sep t
        rw [hdrop, ← ht]
        simp
      · rw [if_neg hpre] at h
        cases hrec : splitOnceSeq sep xs with
        | none => rw [hrec] at h; exact absurd h (by simp)
        | some p =>
            obtain ⟨l2, r2⟩ := p
            rw [hrec] at h
            obtain ⟨hl, hr⟩ := somePairInj h
            subst hl
            subst hr
            simp [ih hrec]

/-- A prefix of an appended list no longer than the left part is a prefix of
the left part. -/
theorem isPrefixOf_left {s a b : Str} (h : s.isPrefixOf (a ++ b))
    (hlen : s.length ≤ a.length) : s.isPrefixOf a := by
  rw [List.isPrefixOf_iff_prefix] at h ⊢
  obtain ⟨t, ht⟩ := h
  refine ⟨a.drop s.length, ?_⟩
  have : s ++ a.drop s.length = (a ++ b).take s.length ++ a.drop s.length := by
    rw [← ht]
    simp [List.take_left]
  rw [this, List.take_append_of_le_length hlen]
  simp

/-- A non-empty separator at the very front is found at position zero. -/
theorem splitOnceSeq_self_prefix : ∀ (sep t : Str), sep ≠ [] →
    splitOnceSeq sep (sep ++ t) = some ([], t) := by
  intro sep t hsep
  cases sep with
  | nil => exact absurd rfl hsep
  | cons c cs =>
      have hpre : (c :: cs).isPrefixOf (c :: (cs ++ t)) := by
        rw [List.isPrefixOf_iff_prefix]
        exact ⟨t, by simp⟩
      have hstep : (c :: cs) ++ t = c :: (cs ++ t) := by simp
      rw [hstep, splitOnceSeq_cons, if_pos hpre]
      have hdrop : (c :: (cs ++ t)).drop (c :: cs).length = t := by
        rw [← hstep]
        exact List.drop_left (c :: cs) t
      rw [hdrop]

/-- If `.git@` does not occur in `u0 ++ ".git"`, the first `.git@` in
`u0 ++ ".git@" ++ rev` is the one at the boundary. -/
theorem splitOnceSeq_dotGit_boundary : ∀ (u0 rev : Str),
    splitOnceSeq ".git@".toList (u0 ++ ".git".toList) = none →
    splitOnceSeq ".git@".toList (u0 ++ ".git@".toList ++ rev) = some (u0, rev) := by
  intro u0
  induction u0 with
  | nil =>
      intro rev _
      have := splitOnceSeq_self_prefix ".git@".toList rev (by decide)
      simpa using this
  | cons x xs ih =>
      intro rev h
      have hxg : x :: xs ++ ".git".toList = x :: (xs ++ ".git".toList) := by simp
      have hxh : x :: xs ++ ".git@".toList ++ rev =
          x :: (xs ++ ".git@".toList ++ rev) := by simp
      rw [hxg] at h
      rw [hxh]
      by_cases hpre : (".git@".toList).isPrefixOf (x :: (xs ++ ".git@".toList ++ rev))
      · exfalso
        have hlen : (".git@".toList).length ≤ (x :: (xs ++ ".git".toList)).length := by
          simp
        have hpre2 : (".git@".toList).isPrefixOf (x :: (xs ++ ".git".toList)) := by
          have hmerge : (x :: (xs ++ ".git".toList)) ++ ('@' :: rev) =
              x :: (xs ++ ".git@".toList ++ rev) := by simp
          exact isPrefixOf_left (by rw [hmerge]; exact hpre) hlen
        rw [splitOnceSeq_cons, if_pos hpre2] at h
        exact absurd h (by simp)
      · rw [splitOnceSeq_cons, if_neg hpre]
        have hinner : splitOnceSeq ".git@".toList (xs ++ ".git".toList) = none := by
          by_cases hpx : (".git@".toList).isPrefixOf (x :: (xs ++ ".git".toList))
          · rw [splitOnceSeq_cons, if_pos hpx] at h
            exact absurd h (by simp)
          · rw [splitOnceSeq_cons, if_neg hpx] at h
            cases hrec : splitOnceSeq ".git@".toList (xs ++ ".git".toList) with
            | none => rfl
            | some p => rw [hrec] at h; exact absurd h (by simp)
        rw [ih rev hinner]

/-- `parse_git` succeeds exactly when the splitter result passes the
non-emptiness checks. -/
theorem parse_git_toOption (rest : Str) :
    (parse_git rest).toOption = finishGitSplit (split_git_locator_and_revision rest) := by
  unfold parse_git
  cases h : split_git_locator_and_revision rest with
  | none => rfl
  | some p =>
      obtain ⟨u, r⟩ := p
      by_cases hu : u = []
      · subst hu
        simp [finishGitSplit, Except.toOption]
      · by_cases hr : r = []
        · subst hr
          simp [finishGitSplit, hu, Except.toOption]
        · simp [finishGitSplit, hu, hr, Except.toOption]

/-- The guarded last-`@` rule and the bare last-`@` rule agree after the
final non-emptiness checks. -/
theorem finish_lastAt (rest : Str) :
    finishGitSplit (splitGitLastAt rest) = finishGitSplit (rsplitOnce '@' rest) := by
  cases hR : rsplitOnce '@' rest with
  | none => simp [splitGitLastAt, hR]
  | some p =>
      obtain ⟨u, r⟩ := p
      by_cases hc : u ≠ [] ∧ r ≠ []
      · simp [splitGitLastAt, hR, hc]
      · simp [splitGitLastAt, hR, hc, finishGitSplit]

/-- Rules (b) and (c) of the code agree with the spec's description after the
final non-emptiness checks. -/
theorem finish_tail (rest : Str) :
    finishGitSplit (splitGitTail rest) = finishGitSplit (splitGitSpecBC rest) := by
  cases hS : splitOnceSeq ".git@".toList rest with
  | none =>
      simp only [splitGitTail, splitGitSpecBC, hS]
      exact finish_lastAt rest
  | some p =>
      obtain ⟨before, after⟩ := p
      by_cases ha : after = []
      · subst ha
        have hrest : rest = (before ++ ".git".toList) ++ '@' :: ([] : Str) := by
          have hre := splitOnceSeq_eq_some hS
          rw [hre]
          simp [show ".git@".toList = ".git".toList ++ ['@'] from rfl]
        have hR : rsplitOnce '@' rest = some (before ++ ".git".toList, []) := by
          rw [hrest]
          exact rsplitOnce_append ([] : Str) (by simp)
        have hL : finishGitSplit (splitGitTail rest) = none := by
          simp only [splitGitTail, hS]
          rw [if_neg (by simp)]
          rw [finish_lastAt rest, hR]
          simp [finishGitSplit]
        have hRs : finishGitSplit (splitGitSpecBC rest) = none := by
          simp only [splitGitSpecBC, hS]
          simp [finishGitSplit]
        rw [hL, hRs]
      · have hL : splitGitTail rest = some (before ++ ".git".toList, after) := by
          simp only [splitGitTail, hS]
          rw [if_pos ⟨by simp, ha⟩]
        have hRs : splitGitSpecBC rest = some (before ++ ".git".toList, after) := by
          simp only [splitGitSpecBC, hS]
        rw [hL, hRs]

/-- `parse` applied to a well-formed `git:` input runs the git parser on the
remainder. -/
theorem parse_git_scheme (rest : Str) (hr : rest ≠ []) :
    parse ("git".toList ++ ':' :: rest) = parse_git rest := by
  unfold parse
  rw [splitOnceChar_append rest (by decide)]
  simp [hr]

/-- The code's git splitter refines the spec's three-rule description at the
level of parse outcomes. -/
theorem parse_git_refines_spec (rest : Str) :
    (parse_git rest).toOption = parse_git_spec rest := by
  rw [parse_git_toOption]
  cases hH : rsplitOnce '#' rest with
  | none =>
      simp only [split_git_locator_and_revision, parse_git_spec, hH]
      exact finish_tail rest
  | some p =>
      obtain ⟨u, r⟩ := p
      by_cases hc : u ≠ [] ∧ r ≠ []
      · simp only [split_git_locator_and_revision, parse_git_spec, hH]
        rw [if_pos hc, if_pos hc]
        simp [finishGitSplit, hc]
      · simp only [split_git_locator_and_revision, parse_git_spec, hH]
        rw [if_neg hc, if_neg hc]
        exact finish_tail rest

/-- C2 fails as stated: the input `git:u.git@a@b#c` has a URL ending in
`.git` and a revision containing `@`, but the `#`-rule takes priority and the
parse yields locator `u.git@a@b` and revision `c`, not the URL `u.git` with
revision `a@b#c`. -/
theorem C2_counterexample :
    (".git".toList <:+ "u.git".toList) ∧ ('@' ∈ "a@b#c".toList) ∧
    parse ("git:u.git@a@b#c").toList =
      .ok ⟨.git, "u.git@a@b".toList, some "c".toList,
        .gitSource "u.git@a@b".toList "c".toList⟩ ∧
    "u.git@a@b".toList ≠ "u.git".toList := by
  refine ⟨⟨"u".toList, by decide⟩, by decide, by rfl, by decide⟩

/-- C2, amended: (1) for every git `rest`, the code's split-and-validate
outcome equals the spec's reference three-rule description; (2) a spec
`git:<url>@<rev>` whose URL ends with `.git` and does not itself contain
`.git@`, with no `#` in URL or revision, and whose revision contains `@`,
parses into exactly that URL and that full revision. -/
theorem C2_git_split_priority :
    (∀ rest : Str, (parse_git rest).toOption = parse_git_spec rest) ∧
    (∀ url rev : Str, ".git".toList <:+ url →
      splitOnceSeq ".git@".toList url = none →
      '#' ∉ url → '#' ∉ rev → '@' ∈ rev →
      parse ("git:".toList ++ url ++ '@' :: rev) =
        .ok ⟨.git, url, some rev, .gitSource url rev⟩) := by
  constructor
  · exact parse_git_refines_spec
  · intro url rev hsuf hnogit hhu hhr hat
    obtain ⟨u0, hu0⟩ := hsuf
    subst hu0
    have hrev : rev ≠ [] := by
      intro h
      rw [h] at hat
      exact absurd hat (List.not_mem_nil '@')
    have hinput : "git:".toList ++ (u0 ++ ".git".toList) ++ '@' :: rev =
        "git".toList ++ ':' :: ((u0 ++ ".git".toList) ++ '@' :: rev) := by
      simp [show "git:".toList = "git".toList ++ [':'] from rfl]
    rw [hinput, parse_git_scheme _ (by simp)]
    have hnohash : ('#' : Char) ∉ (u0 ++ ".git".toList) ++ '@' :: rev := by
      intro hm
      rcases List.mem_append.mp hm with hm1 | hm2
      · exact hhu hm1
      · rcases List.mem_cons.mp hm2 with hm3 | hm4
        · exact absurd hm3 (by decide)
        · exact hhr hm4
    have hboundary : splitOnceSeq ".git@".toList ((u0 ++ ".git".toList) ++ '@' :: rev) =
        some (u0, rev) := by
      have hfuse : (u0 ++ ".git".toList) ++ '@' :: rev =
          u0 ++ ".git@".toList ++ rev := by
        simp [show ".git@".toList = ".git".toList ++ ['@'] from rfl]
      rw [hfuse]
      exact splitOnceSeq_dotGit_boundary u0 rev hnogit
    have hsplit : split_git_locator_and_revision ((u0 ++ ".git".toList) ++ '@' :: rev) =
        some (u0 ++ ".git".toList, rev) := by
      simp only [split_git_locator_and_revision, rsplitOnce_eq_none hnohash]
      simp only [splitGitTail, hboundary]
      rw [if_pos ⟨by simp, hrev⟩]
    simp only [parse_git, hsplit]
    rw [if_neg (by simp), if_neg hrev]

/-- Witness for the amended C2 on the openworkflow-style input. -/
theorem C2_git_split_priority_witness :
    parse ("git:".toList ++ "https://h/openworkflow.git".toList
        ++ '@' :: "openworkflow@0.7.3".toList) =
      .ok ⟨.git, "https://h/openworkflow.git".toList,
        some "openworkflow@0.7.3".toList,
        .gitSource "https://h/openworkflow.git".toList
          "openworkflow@0.7.3".toList⟩ :=
  C2_git_split_priority.2 "https://h/openworkflow.git".toList
    "openworkflow@0.7.3".toList ⟨"https://h/openworkflow".toList, by decide⟩
    (by decide) (by decide) (by decide) (by decide)

/-- C10 fails as stated at the boundary input `npm:@`: the rest `@` begins
with `@` and contains no other `@`, yet parse reports the empty-version
error instead of succeeding with locator `@`. -/
theorem C10_counterexample :
    parse ("npm:@").toList = .error ParseError.emptyVersionMarker := by rfl

/-- C10, amended: for a non-git scheme whose rest is a leading `@` followed
by at least one character and no further `@`, parse succeeds with the entire
rest (including the leading `@`) as locator and no version; the sole
exception is the rest `@` alone, which is an empty-version error. -/
theorem C10_leading_at_registry (scheme tail : Str)
    (hs : scheme ≠ []) (hcolon : ':' ∉ scheme) (hgit : scheme ≠ "git".toList)
    (ht : tail ≠ []) (hat : '@' ∉ tail) :
    parse (scheme ++ ':' :: '@' :: tail) =
      .ok ⟨ecoOf scheme, '@' :: tail, none, .registry⟩ := by
  have hR : rsplitOnce '@' ('@' :: tail) = some ([], tail) := by
    have := rsplitOnce_append tail hat (a := ([] : Str))
    simpa using this
  have hgit2 : scheme ≠ ['g', 'i', 't'] := hgit
  unfold parse
  rw [splitOnceChar_append ('@' :: tail) hcolon]
  simp [hs, hgit2, hR, ht]

/-- Witness for the amended C10 at `npm:@types/node`. -/
theorem C10_leading_at_registry_witness :
    parse ("npm".toList ++ ':' :: '@' :: "types/node".toList) =
      .ok ⟨ecoOf "npm".toList, '@' :: "types/node".toList, none, .registry⟩ :=
  C10_leading_at_registry "npm".toList "types/node".toList (by decide) (by decide)
    (by decide) (by decide) (by decide)

/-- `alternate_tag_revision` is the `v`-toggle guarded by the semver test. -/
theorem alternate_tag_revision_eq (r : Str) :
    alternate_tag_revision r =
      (if looks_like_semver_revision r then some (vToggle r) else none) := by
  unfold alternate_tag_revision vToggle
  by_cases hsem : looks_like_semver_revision r
  · rw [if_pos hsem]
    by_cases hv : (['v'] : Str).isPrefixOf r
    · rw [if_pos hv]
      have hstrip : stripPrefixStr ['v'] r = some (r.drop 1) := by
        unfold stripPrefixStr
        rw [if_pos hv]
        rfl
      have hplain : looks_like_plain_semver r.tail = true := by
        unfold looks_like_semver_revision at hsem
        rw [hstrip] at hsem
        simpa [List.drop_one] using hsem
      simp [hsem, hstrip, hplain, List.drop_one]
    · have hstrip : stripPrefixStr ['v'] r = none := by
        unfold stripPrefixStr
        rw [if_neg hv]
      simp [hsem, hstrip, hv]
  · have hb : (!looks_like_semver_revision r) = true := by
      simpa using hsem
    simp [hsem, hb]

/-- Members of a `pushUnique` fold come from the accumulator or the list. -/
theorem mem_foldl_pushUnique : ∀ (l : List Str) (acc : List Str) (s : Str),
    s ∈ l.foldl pushUnique acc → s ∈ acc ∨ s ∈ l := by
  intro l
  induction l with
  | nil => intro acc s h; exact Or.inl h
  | cons x xs ih =>
      intro acc s h
      rcases ih (pushUnique acc x) s h with hacc | hxs
      · unfold pushUnique at hacc
        by_cases hc : acc.contains x
        · rw [if_pos hc] at hacc
          exact Or.inl hacc
        · rw [if_neg hc] at hacc
          rcases List.mem_append.mp hacc with h1 | h2
          · exact Or.inl h1
          · right
            simp only [List.mem_singleton] at h2
            simp [h2]
      · exact Or.inr (List.mem_cons_of_mem x hxs)

/-- Wildcard-freedom of one refspec triple. -/
theorem noStar_triple (rev : Str) (h : '*' ∉ rev) :
    ∀ s ∈ refspecTriple rev, '*' ∉ s := by
  intro s hs hmem
  have hlit : ('*' : Char) ∉ "refs/tags/".toList := by decide
  have hlit2 : ('*' : Char) ∉ "refs/heads/".toList := by decide
  unfold refspecTriple at hs
  rcases List.mem_cons.mp hs with h1 | hs2
  · subst h1
    rcases List.mem_append.mp hmem with ha | hb
    · rcases List.mem_append.mp ha with hc | hd
      · exact hlit hc
      · exact h hd
    · rcases List.mem_cons.mp hb with he | hf
      · exact absurd he (by decide)
      · rcases List.mem_append.mp hf with hg | hh
        · exact hlit hg
        · exact h hh
  · rcases List.mem_cons.mp hs2 with h2 | hs3
    · subst h2
      rcases List.mem_append.mp hmem with ha | hb
      · rcases List.mem_append.mp ha with hc | hd
        · exact hlit2 hc
        · exact h hd
      · rcases List.mem_cons.mp hb with he | hf
        · exact absurd he (by decide)
        · rcases List.mem_append.mp hf with hg | hh
          · exact hlit2 hg
          · exact h hh
    · rcases List.mem_singleton.mp hs3 with h3
      subst h3
      exact h hmem

/-- The `v`-toggle introduces no wildcard. -/
theorem noStar_vToggle (r : Str) (h : '*' ∉ r) : '*' ∉ vToggle r := by
  unfold vToggle
  by_cases hv : (['v'] : Str).isPrefixOf r
  · rw [if_pos hv]
    intro hm
    exact h (List.drop_subset 1 r hm)
  · rw [if_neg hv]
    intro hm
    rcases List.mem_cons.mp hm with h1 | h2
    · exact absurd h1 (by decide)
    · exact h h2

/-- C3 fails as stated: for the requested revision `refs/*`, the produced
refspec `refs/*:refs/*` contains a wildcard. -/
theorem C3_counterexample :
    "refs/*:refs/*".toList ∈ targeted_refspecs "refs/*".toList ∧
    '*' ∈ "refs/*:refs/*".toList := by
  refine ⟨?_, by decide⟩
  have : targeted_refspecs "refs/*".toList =
      ["refs/*:refs/*".toList, "refs/*".toList] := by rfl
  rw [this]
  exact List.mem_cons_self _ _

/-- C3, amended: (1) for every requested revision, the targeted refspec
candidates equal the spec's reference enumeration (full-ref pair, hex-OID
four-element list, or deduplicated tag/head/bare triples with the semver
`v`-toggle); (2) when the requested revision itself contains no `*`, no
produced refspec contains a wildcard. -/
theorem C3_targeted_refspecs_match_spec :
    (∀ r : Str, targeted_refspecs r = targeted_refspecs_spec r) ∧
    (∀ r : Str, '*' ∉ r → ∀ s ∈ targeted_refspecs r, '*' ∉ s) := by
  have heq : ∀ r : Str, targeted_refspecs r = targeted_refspecs_spec r := by
    intro r
    unfold targeted_refspecs targeted_refspecs_spec
    by_cases h1 : ("refs/".toList).isPrefixOf r
    · rw [if_pos h1, if_pos h1]
    · rw [if_neg h1, if_neg h1]
      by_cases h2 : looks_like_hex_revision r
      · rw [if_pos h2, if_pos h2]
      · rw [if_neg h2, if_neg h2]
        rw [alternate_tag_revision_eq]
        by_cases h3 : looks_like_semver_revision r
        · rw [if_pos h3, if_pos h3]
          rfl
        · rw [if_neg h3, if_neg h3]
          rfl
  refine ⟨heq, ?_⟩
  intro r hr s hs
  rw [heq r] at hs
  unfold targeted_refspecs_spec at hs
  by_cases h1 : ("refs/".toList).isPrefixOf r
  · rw [if_pos h1] at hs
    rcases List.mem_cons.mp hs with he | hs2
    · subst he
      intro hm
      rcases List.mem_append.mp hm with ha | hb
      · exact hr ha
      · rcases List.mem_cons.mp hb with hc | hd
        · exact absurd hc (by decide)
        · exact hr hd
    · rcases List.mem_singleton.mp hs2 with he
      subst he
      exact hr
  · rw [if_neg h1] at hs
    by_cases h2 : looks_like_hex_revision r
    · rw [if_pos h2] at hs
      rcases List.mem_cons.mp hs with he | hs2
      · subst he
        exact hr
      · rcases List.mem_cons.mp hs2 with he2 | hs3
        · subst he2
          decide
        · rcases List.mem_cons.mp hs3 with he3 | hs4
          · subst he3
            decide
          · rcases List.mem_singleton.mp hs4 with he4
            subst he4
            decide
    · rw [if_neg h2] at hs
      rcases mem_foldl_pushUnique _ [] s hs with hacc | hmem
      · exact absurd hacc (List.not_mem_nil s)
      · rcases List.mem_append.mp hmem with ht | htog
        · exact noStar_triple r hr s ht
        · by_cases h3 : looks_like_semver_revision r
          · rw [if_pos h3] at htog
            exact noStar_triple (vToggle r) (noStar_vToggle r hr) s htog
          · rw [if_neg h3] at htog
            exact absurd htog (List.not_mem_nil s)

/-- Witness for the amended C3 at the tag-like revision `v18.3.1`. -/
theorem C3_targeted_refspecs_match_spec_witness :
    targeted_refspecs "v18.3.1".toList = targeted_refspecs_spec "v18.3.1".toList ∧
    ('*' ∉ "v18.3.1".toList ∧ ∀ s ∈ targeted_refspecs "v18.3.1".toList, '*' ∉ s) :=
  ⟨C3_targeted_refspecs_match_spec.1 "v18.3.1".toList,
    by decide,
    fun s hs => C3_targeted_refspecs_match_spec.2 "v18.3.1".toList (by decide) s hs⟩

/-- C4 fails as stated: with `project_urls` absent and `home_page` present,
the resolver returns no repository URL instead of falling back to
`info.home_page`. -/
theorem C4_counterexample :
    pypi_repository_url ⟨"1.0".toList, none, some "https://example.com".toList⟩ = none ∧
    (some "https://example.com".toList ≠ (none : Option Str)) := by
  exact ⟨rfl, by decide⟩

/-- C4, amended: when `project_urls` is absent the resolver fails outright
(no `home_page` fallback); when `project_urls` is present, the chosen URL is
the first present of Source, Source Code, Repository, Code, Homepage, else
the first value of `project_urls`, else `info.home_page`; in the present case
resolution fails exactly when `project_urls` is empty and `home_page` is
absent. -/
theorem C4_pypi_repository_url_priority :
    (∀ info : PypiInfo, info.project_urls = none → pypi_repository_url info = none) ∧
    (∀ (info : PypiInfo) (m : List (Str × Str)), info.project_urls = some m →
      pypi_repository_url info =
        match firstPreferred m pypiPreferredKeys with
        | some url => some url
        | none =>
            match (m.map Prod.snd).head? with
            | some v => some v
            | none => info.home_page) ∧
    (∀ (info : PypiInfo) (m : List (Str × Str)), info.project_urls = some m →
      (pypi_repository_url info = none ↔ m = [] ∧ info.home_page = none)) := by
  refine ⟨?_, ?_, ?_⟩
  · intro info h
    unfold pypi_repository_url
    rw [h]
  · intro info m h
    unfold pypi_repository_url
    rw [h]
  · intro info m h
    unfold pypi_repository_url
    rw [h]
    cases m with
    | nil =>
        constructor
        · intro hnone
          exact ⟨rfl, by simpa [firstPreferred, assocGet, pypiPreferredKeys] using hnone⟩
        · intro hm
          simp [firstPreferred, assocGet, pypiPreferredKeys, hm.2]
    | cons p rest =>
        constructor
        · intro hnone
          exfalso
          cases hF : firstPreferred (p :: rest) pypiPreferredKeys with
          | some url => simp [hF] at hnone
          | none => simp [hF] at hnone
        · intro hm
          exact absurd hm.1 (by simp)

/-- Witness for the amended C4: all three conjuncts at concrete inputs. -/
theorem C4_pypi_repository_url_priority_witness :
    pypi_repository_url ⟨"1.0".toList, none, some "h".toList⟩ = none ∧
    pypi_repository_url ⟨"1.0".toList, some [("Homepage".toList, "hp".toList),
        ("Source".toList, "src".toList)], none⟩ =
      (match firstPreferred [("Homepage".toList, "hp".toList),
          ("Source".toList, "src".toList)] pypiPreferredKeys with
        | some url => some url
        | none =>
            match ([("Homepage".toList, "hp".toList),
                ("Source".toList, "src".toList)].map Prod.snd).head? with
            | some v => some v
            | none => (none : Option Str)) ∧
    (pypi_repository_url ⟨"1.0".toList, some [], none⟩ = none ↔
      ([] : List (Str × Str)) = [] ∧ (none : Option Str) = none) :=
  ⟨C4_pypi_repository_url_priority.1 ⟨"1.0".toList, none, some "h".toList⟩ rfl,
    C4_pypi_repository_url_priority.2.1 ⟨"1.0".toList,
      some [("Homepage".toList, "hp".toList), ("Source".toList, "src".toList)], none⟩
      [("Homepage".toList, "hp".toList), ("Source".toList, "src".toList)] rfl,
    C4_pypi_repository_url_priority.2.2 ⟨"1.0".toList, some [], none⟩ [] rfl⟩

/-- `dmInsert` binds the inserted key to the inserted value. -/
theorem dmGet_dmInsert_self : ∀ (m : DepsMap) (k : Str × Str) (v : NormalizedDependency),
    dmGet (dmInsert m k v) k = some v := by
  intro m
  induction m with
  | nil => intro k v; simp [dmInsert, dmGet]
  | cons p rest ih =>
      intro k v
      obtain ⟨k2, v2⟩ := p
      by_cases hk : k2 = k
      · simp [dmInsert, dmGet, hk]
      · simp [dmInsert, dmGet, hk, ih]

/-- `dmInsert` does not disturb other keys. -/
theorem dmGet_dmInsert_other : ∀ (m : DepsMap) (k k2 : Str × Str)
    (v : NormalizedDependency), k ≠ k2 → dmGet (dmInsert m k v) k2 = dmGet m k2 := by
  intro m
  induction m with
  | nil =>
      intro k k2 v hne
      simp [dmInsert, dmGet, hne]
  | cons p rest ih =>
      intro k k2 v hne
      obtain ⟨k3, v3⟩ := p
      by_cases hk : k3 = k
      · subst hk
        simp [dmInsert, dmGet, hne]
      · by_cases hk2 : k3 = k2
        · simp [dmInsert, dmGet, hk, hk2, Ne.symm hne]
        · simp [dmInsert, dmGet, hk, hk2, ih _ _ _ hne]

/-- Key presence survives `dmInsert`. -/
theorem isSome_dmInsert (m : DepsMap) (k k2 : Str × Str) (v : NormalizedDependency)
    (h : (dmGet m k2).isSome) : (dmGet (dmInsert m k v) k2).isSome := by
  by_cases hk : k = k2
  · subst hk
    simp [dmGet_dmInsert_self]
  · rw [dmGet_dmInsert_other m k k2 v hk]
    exact h

/-- Key presence survives `dmEntryOrInsert`. -/
theorem isSome_dmEntryOrInsert (m : DepsMap) (k k2 : Str × Str)
    (v : NormalizedDependency) (h : (dmGet m k2).isSome) :
    (dmGet (dmEntryOrInsert m k v) k2).isSome := by
  unfold dmEntryOrInsert
  cases hg : dmGet m k with
  | some e => exact h
  | none => exact isSome_dmInsert m k k2 v h

/-- Key presence survives `merge_dependency`. -/
theorem isSome_merge_dependency (m : DepsMap) (c : NormalizedDependency)
    (k2 : Str × Str) (h : (dmGet m k2).isSome) :
    (dmGet (merge_dependency m c) k2).isSome := by
  cases hg : dmGet m (c.name, c.version) with
  | some e =>
      by_cases hh : e.git_hint.isSome
      · simpa [merge_dependency, hg, hh] using h
      · have := isSome_dmInsert m (c.name, c.version) k2 c h
        simpa [merge_dependency, hg, hh] using this
  | none =>
      have := isSome_dmInsert m (c.name, c.version) k2 c h
      simpa [merge_dependency, hg] using this

/-- Key presence survives the root-dependencies copy. -/
theorem isSome_copyRootDeps : ∀ (R : List (Str × Str)) (m : DepsMap) (k2 : Str × Str),
    (dmGet m k2).isSome → (dmGet (copyRootDeps m R) k2).isSome := by
  intro R
  induction R with
  | nil => intro m k2 h; exact h
  | cons nv rest ih =>
      intro m k2 h
      exact ih _ k2 (isSome_dmEntryOrInsert m _ k2 _ h)

/-- One step of `copyRootDeps`. -/
theorem copyRootDeps_cons (m : DepsMap) (nv : Str × Str) (rest : List (Str × Str)) :
    copyRootDeps m (nv :: rest) =
      copyRootDeps (dmEntryOrInsert m (nv.1, nv.2) ⟨.npmEco, nv.1, nv.2, none, none⟩)
        rest := rfl

/-- `copyRootDeps` establishes presence of every copied pair. -/
theorem copyRootDeps_mem : ∀ (R : List (Str × Str)) (m : DepsMap) (n v : Str),
    (n, v) ∈ R → (dmGet (copyRootDeps m R) (n, v)).isSome := by
  intro R
  induction R with
  | nil => intro m n v h; exact absurd h (List.not_mem_nil _)
  | cons nv rest ih =>
      intro m n v h
      rw [copyRootDeps_cons]
      rcases List.mem_cons.mp h with he | hr
      · apply isSome_copyRootDeps rest
        rw [← he]
        cases hg : dmGet m (n, v) with
        | some e => simp [dmEntryOrInsert, hg]
        | none => simp [dmEntryOrInsert, hg, dmGet_dmInsert_self]
      · exact ih _ n v hr

/-- Key presence survives the `packages` loop. -/
theorem isSome_processPackages : ∀ (ps : List (Str × NpmPackageEntry)) (m : DepsMap)
    (k2 : Str × Str), (dmGet m k2).isSome → (dmGet (processPackages m ps) k2).isSome := by
  intro ps
  induction ps with
  | nil => intro m k2 h; exact h
  | cons p rest ih =>
      intro m k2 h
      obtain ⟨key, entry⟩ := p
      unfold processPackages
      apply ih
      by_cases hk : key = []
      · cases hd : entry.dependencies with
        | some R => simp only [hk, if_true, hd]; exact isSome_copyRootDeps R m k2 h
        | none => simp only [hk, if_true, hd]; exact h
      · cases hv : entry.version with
        | none => simp only [hk, if_false, hv]; exact h
        | some version =>
            cases hn : package_name_from_lock_key key with
            | none => simp only [hk, if_false, hv, hn]; exact h
            | some name =>
                simp only [hk, if_false, hv, hn]
                exact isSome_merge_dependency m _ k2 h

/-- One-step equations for `dmInsert` on a cons cell. -/
theorem dmInsert_cons_eq (k2 : Str × Str) (v2 : NormalizedDependency) (rest : DepsMap)
    (k : Str × Str) (v : NormalizedDependency) (h : k2 = k) :
    dmInsert ((k2, v2) :: rest) k v = (k, v) :: rest := by
  simp only [dmInsert]
  rw [if_pos h]

/-- One-step equation for `dmInsert` past a different key. -/
theorem dmInsert_cons_ne (k2 : Str × Str) (v2 : NormalizedDependency) (rest : DepsMap)
    (k : Str × Str) (v : NormalizedDependency) (h : ¬ k2 = k) :
    dmInsert ((k2, v2) :: rest) k v = (k2, v2) :: dmInsert rest k v := by
  simp only [dmInsert]
  rw [if_neg h]

/-- Keys after `dmInsert` come from the inserted key or the old keys. -/
theorem dmKeys_dmInsert_mem : ∀ (m : DepsMap) (k : Str × Str)
    (v : NormalizedDependency) (k3 : Str × Str),
    k3 ∈ (dmInsert m k v).map Prod.fst → k3 = k ∨ k3 ∈ m.map Prod.fst := by
  intro m
  induction m with
  | nil =>
      intro k v k3 h
      simp [dmInsert] at h
      exact Or.inl h
  | cons p rest ih =>
      intro k v k3 h
      obtain ⟨k2, v2⟩ := p
      by_cases hk : k2 = k
      · rw [dmInsert_cons_eq k2 v2 rest k v hk, List.map_cons] at h
        rcases List.mem_cons.mp h with h1 | h2
        · exact Or.inl h1
        · right
          rw [List.map_cons]
          exact List.mem_cons_of_mem _ h2
      · rw [dmInsert_cons_ne k2 v2 rest k v hk, List.map_cons] at h
        rcases List.mem_cons.mp h with h1 | h2
        · right
          rw [List.map_cons]
          exact h1 ▸ List.mem_cons_self _ _
        · rcases ih k v k3 h2 with h3 | h4
          · exact Or.inl h3
          · right
            rw [List.map_cons]
            exact List.mem_cons_of_mem _ h4

/-- `dmInsert` preserves distinct keys. -/
theorem nodup_dmInsert : ∀ (m : DepsMap) (k : Str × Str) (v : NormalizedDependency),
    (m.map Prod.fst).Nodup → ((dmInsert m k v).map Prod.fst).Nodup := by
  intro m
  induction m with
  | nil => intro k v _; simp [dmInsert]
  | cons p rest ih =>
      intro k v h
      obtain ⟨k2, v2⟩ := p
      simp only [List.map_cons, List.nodup_cons] at h
      by_cases hk : k2 = k
      · rw [dmInsert_cons_eq k2 v2 rest k v hk]
        simp only [List.map_cons, List.nodup_cons]
        exact ⟨hk ▸ h.1, h.2⟩
      · rw [dmInsert_cons_ne k2 v2 rest k v hk]
        simp only [List.map_cons, List.nodup_cons]
        refine ⟨?_, ih k v h.2⟩
        intro hmem
        rcases dmKeys_dmInsert_mem rest k v k2 hmem with h1 | h2
        · exact hk h1
        · exact h.1 h2

/-- `dmEntryOrInsert` preserves distinct keys. -/
theorem nodup_dmEntryOrInsert (m : DepsMap) (k : Str × Str) (v : NormalizedDependency)
    (h : (m.map Prod.fst).Nodup) : ((dmEntryOrInsert m k v).map Prod.fst).Nodup := by
  unfold dmEntryOrInsert
  cases dmGet m k with
  | some e => exact h
  | none => exact nodup_dmInsert m k v h

/-- `merge_dependency` preserves distinct keys. -/
theorem nodup_merge_dependency (m : DepsMap) (c : NormalizedDependency)
    (h : (m.map Prod.fst).Nodup) : ((merge_dependency m c).map Prod.fst).Nodup := by
  cases hg : dmGet m (c.name, c.version) with
  | some e =>
      by_cases hh : e.git_hint.isSome
      · simpa [merge_dependency, hg, hh] using h
      · have := nodup_dmInsert m (c.name, c.version) c h
        simpa [merge_dependency, hg, hh] using this
  | none =>
      have := nodup_dmInsert m (c.name, c.version) c h
      simpa [merge_dependency, hg] using this

/-- `copyRootDeps` preserves distinct keys. -/
theorem nodup_copyRootDeps : ∀ (R : List (Str × Str)) (m : DepsMap),
    (m.map Prod.fst).Nodup → ((copyRootDeps m R).map Prod.fst).Nodup := by
  intro R
  induction R with
  | nil => intro m h; exact h
  | cons nv rest ih =>
      intro m h
      rw [copyRootDeps_cons]
      exact ih _ (nodup_dmEntryOrInsert m _ _ h)

/-- The `packages` loop preserves distinct keys. -/
theorem nodup_processPackages : ∀ (ps : List (Str × NpmPackageEntry)) (m : DepsMap),
    (m.map Prod.fst).Nodup → ((processPackages m ps).map Prod.fst).Nodup := by
  intro ps
  induction ps with
  | nil => intro m h; exact h
  | cons p rest ih =>
      intro m h
      obtain ⟨key, entry⟩ := p
      unfold processPackages
      apply ih
      by_cases hk : key = []
      · cases hd : entry.dependencies with
        | some R => simp only [hk, if_true, hd]; exact nodup_copyRootDeps R m h
        | none => simp only [hk, if_true, hd]; exact h
      · cases hv : entry.version with
        | none => simp only [hk, if_false, hv]; exact h
        | some version =>
            cases hn : package_name_from_lock_key key with
            | none => simp only [hk, if_false, hv, hn]; exact h
            | some name =>
                simp only [hk, if_false, hv, hn]
                exact nodup_merge_dependency m _ h

/-- The top-level fallback loop preserves distinct keys. -/
theorem nodup_processTopLevel : ∀ (tl : List (Str × NpmTopLevelDependency)) (m : DepsMap),
    (m.map Prod.fst).Nodup → ((processTopLevel m tl).map Prod.fst).Nodup := by
  intro tl
  induction tl with
  | nil => intro m h; exact h
  | cons nd rest ih =>
      intro m h
      show ((processTopLevel _ rest).map Prod.fst).Nodup
      apply ih
      by_cases hv : (((nd.2.versionF).orElse (fun _ => nd.2.rawValue)).getD []) = []
      · simpa [hv] using h
      · have := nodup_merge_dependency m
          ⟨.npmEco, nd.1, ((nd.2.versionF).orElse (fun _ => nd.2.rawValue)).getD [],
            nd.2.resolvedF.bind parse_git_hint_from_npm_resolved, none⟩ h
        simpa [hv] using this

/-- The `packages` loop splits over list append. -/
theorem processPackages_append : ∀ (a b : List (Str × NpmPackageEntry)) (m : DepsMap),
    processPackages m (a ++ b) = processPackages (processPackages m a) b := by
  intro a
  induction a with
  | nil => intro b m; rfl
  | cons p rest ih =>
      intro b m
      obtain ⟨key, entry⟩ := p
      show processPackages _ (rest ++ b) = _
      rw [ih]
      rfl

/-- The root-entry step of the `packages` loop copies the root dependencies
unconditionally. -/
theorem processPackages_root_step (m : DepsMap) (e : NpmPackageEntry)
    (rest : List (Str × NpmPackageEntry)) (R : List (Str × Str))
    (hd : e.dependencies = some R) :
    processPackages m (([], e) :: rest) = processPackages (copyRootDeps m R) rest := by
  simp only [processPackages, hd, if_true]

/-- A present key means the map is non-empty. -/
theorem ne_nil_of_dmGet_isSome (m : DepsMap) (k : Str × Str)
    (h : (dmGet m k).isSome) : m ≠ [] := by
  intro h0
  rw [h0] at h
  simp [dmGet] at h

/-- C5 fails as stated: a lockfile whose `packages` map has both the root
entry (with a dependency `a@1.0.0`) and an installed entry
`node_modules/b@2.0.0` still copies the root dependency pair into the
output, although installed entries are present. -/
theorem C5_counterexample :
    dmGet (npmLockParse
        ⟨some [([], ⟨none, none, some [("a".toList, "1.0.0".toList)]⟩),
               ("node_modules/b".toList, ⟨some "2.0.0".toList, none, none⟩)], none⟩)
      ("a".toList, "1.0.0".toList) =
      some ⟨.npmEco, "a".toList, "1.0.0".toList, none, none⟩ ∧
    dmGet (npmLockParse
        ⟨some [([], ⟨none, none, some [("a".toList, "1.0.0".toList)]⟩),
               ("node_modules/b".toList, ⟨some "2.0.0".toList, none, none⟩)], none⟩)
      ("b".toList, "2.0.0".toList) =
      some ⟨.npmEco, "b".toList, "2.0.0".toList, none, none⟩ := by
  exact ⟨rfl, rfl⟩

/-- C5, amended: (1) the root entry's `dependencies` pairs are copied into
the output regardless of installed entries (the root entry itself produces no
package entry); (2) the output is de-duplicated by (name, version); (3) an
existing entry with a git hint survives any later candidate, and (4) an
existing entry without a git hint is replaced by the candidate. -/
theorem C5_package_lock_parse_behavior :
    (∀ (lock : NpmPackageLock) (pre post : List (Str × NpmPackageEntry))
      (e : NpmPackageEntry) (R : List (Str × Str)) (n v : Str),
      lock.packages = some (pre ++ ([], e) :: post) →
      e.dependencies = some R → (n, v) ∈ R →
      (dmGet (npmLockParse lock) (n, v)).isSome) ∧
    (∀ lock : NpmPackageLock, ((npmLockParse lock).map Prod.fst).Nodup) ∧
    (∀ (m : DepsMap) (c e : NormalizedDependency),
      dmGet m (c.name, c.version) = some e → e.git_hint.isSome →
      merge_dependency m c = m) ∧
    (∀ (m : DepsMap) (c : NormalizedDependency),
      (∀ e, dmGet m (c.name, c.version) = some e → e.git_hint = none) →
      dmGet (merge_dependency m c) (c.name, c.version) = some c) := by
  refine ⟨?_, ?_, ?_, ?_⟩
  · intro lock pre post e R n v hp hd hm
    have hpres : (dmGet (processPackages [] (pre ++ ([], e) :: post)) (n, v)).isSome := by
      rw [processPackages_append, processPackages_root_step _ e post R hd]
      exact isSome_processPackages post _ (n, v)
        (copyRootDeps_mem R (processPackages [] pre) n v hm)
    have hne := ne_nil_of_dmGet_isSome _ _ hpres
    simp only [npmLockParse, hp]
    rw [if_neg hne]
    exact hpres
  · intro lock
    cases hp : lock.packages with
    | none =>
        simp only [npmLockParse, hp]
        cases hdep : lock.dependencies with
        | some tl =>
            simp only [if_true]
            exact nodup_processTopLevel tl [] (by simp)
        | none =>
            simp only [if_true]
            simp
    | some ps =>
        have hd0 : ((processPackages [] ps).map Prod.fst).Nodup :=
          nodup_processPackages ps [] (by simp)
        simp only [npmLockParse, hp]
        by_cases hz : processPackages [] ps = []
        · rw [if_pos hz]
          cases hdep : lock.dependencies with
          | some tl => exact nodup_processTopLevel tl _ hd0
          | none => exact hd0
        · rw [if_neg hz]
          exact hd0
  · intro m c e hg hh
    simp [merge_dependency, hg, hh]
  · intro m c hnone
    cases hg : dmGet m (c.name, c.version) with
    | some e =>
        have := hnone e hg
        simp [merge_dependency, hg, this, dmGet_dmInsert_self]
    | none => simp [merge_dependency, hg, dmGet_dmInsert_self]

/-- Witness for the amended C5 at a concrete two-entry lockfile and concrete
merges. -/
theorem C5_package_lock_parse_behavior_witness :
    (dmGet (npmLockParse
        ⟨some [([], ⟨none, none, some [("a".toList, "1.0.0".toList)]⟩),
               ("node_modules/b".toList, ⟨some "2.0.0".toList, none, none⟩)], none⟩)
      ("a".toList, "1.0.0".toList)).isSome ∧
    merge_dependency [(("a".toList, "1".toList),
        ⟨.npmEco, "a".toList, "1".toList, some ⟨"u".toList, "r".toList⟩, none⟩)]
      ⟨.npmEco, "a".toList, "1".toList, none, none⟩ =
      [(("a".toList, "1".toList),
        ⟨.npmEco, "a".toList, "1".toList, some ⟨"u".toList, "r".toList⟩, none⟩)] ∧
    dmGet (merge_dependency [(("a".toList, "1".toList),
        ⟨.npmEco, "a".toList, "1".toList, none, none⟩)]
      ⟨.npmEco, "a".toList, "1".toList, some ⟨"u".toList, "r".toList⟩, none⟩)
      ("a".toList, "1".toList) =
      some ⟨.npmEco, "a".toList, "1".toList, some ⟨"u".toList, "r".toList⟩, none⟩ :=
  ⟨C5_package_lock_parse_behavior.1
      ⟨some [([], ⟨none, none, some [("a".toList, "1.0.0".toList)]⟩),
             ("node_modules/b".toList, ⟨some "2.0.0".toList, none, none⟩)], none⟩
      [] [("node_modules/b".toList, ⟨some "2.0.0".toList, none, none⟩)]
      ⟨none, none, some [("a".toList, "1.0.0".toList)]⟩
      [("a".toList, "1.0.0".toList)] "a".toList "1.0.0".toList rfl rfl (by decide),
    C5_package_lock_parse_behavior.2.2.1 _
      ⟨.npmEco, "a".toList, "1".toList, none, none⟩
      ⟨.npmEco, "a".toList, "1".toList, some ⟨"u".toList, "r".toList⟩, none⟩
      rfl rfl,
    C5_package_lock_parse_behavior.2.2.2 _
      ⟨.npmEco, "a".toList, "1".toList, some ⟨"u".toList, "r".toList⟩, none⟩
      (fun e he => by
        have : e = ⟨.npmEco, "a".toList, "1".toList, none, none⟩ := by
          have h2 := he
          simp [dmGet] at h2
          exact h2.symm
        rw [this])⟩

/-- C9: `cache clean` with `yes` and a resolved cache directory of `/`
always fails with the refusal error and performs no filesystem deletion or
modification. -/
theorem C9_clean_root_refused (cwd cache_dir : Str) (remove : RemoveResult)
    (h : resolvedCacheDir cwd cache_dir = "/".toList) :
    run_cache_clean cwd cache_dir true remove =
      (Except.error CleanError.refuseRoot, []) := by
  simp [run_cache_clean, h]

/-- Witness for C9 at an absolute configured cache dir `/`. -/
theorem C9_clean_root_refused_witness :
    run_cache_clean "/home/u".toList "/".toList true RemoveResult.okR =
      (Except.error CleanError.refuseRoot, []) :=
  C9_clean_root_refused "/home/u".toList "/".toList RemoveResult.okR (by decide)

/-- Successful metadata validation forces the schema version and the
target-identity fields. -/
theorem validate_metadata_ok (target : GitPullTarget) (m : RemoteSourceMetadata)
    (u : Unit) (h : validate_metadata target m = .ok u) :
    m.schema_version = 1 ∧ m.ecosystem = target.ecosystem.asStr ∧
    m.locator = target.locator ∧ m.requested_revision = target.requested_revision := by
  unfold validate_metadata at h
  by_cases h1 : m.schema_version ≠ 1
  · rw [if_pos h1] at h
    exact absurd h (by simp)
  · rw [if_neg h1] at h
    by_cases h2 : m.ecosystem ≠ target.ecosystem.asStr
    · rw [if_pos h2] at h
      exact absurd h (by simp)
    · rw [if_neg h2] at h
      by_cases h3 : m.locator ≠ target.locator
      · rw [if_pos h3] at h
        exact absurd h (by simp)
      · rw [if_neg h3] at h
        by_cases h4 : m.requested_revision ≠ target.requested_revision
        · rw [if_pos h4] at h
          exact absurd h (by simp)
        · push_neg at h1 h2 h3 h4
          exact ⟨h1, h2, h3, h4⟩

/-- C6: (1) hydrate returns NotFound exactly when the metadata read reports
not-found; (2) parsed metadata whose schema version or identity fields
mismatch the target always causes an error; (3) an existing checkout yields
AlreadyPresent with the symlink refreshed to the checkout path; (4) on unpack
failure the partially created checkout directory is removed; (5) a fresh
successful unpack yields Hydrated with the directory created and the symlink
refreshed. -/
theorem C6_hydrate_outcomes :
    (∀ (env : HydrateEnv) (target : GitPullTarget),
      (hydrate_git_source env target).1 = .ok .notFoundOutcome ↔
        env.metaRead = .notFound) ∧
    (∀ (env : HydrateEnv) (target : GitPullTarget) (m : RemoteSourceMetadata),
      env.metaRead = .okMeta m →
      (m.schema_version ≠ 1 ∨ m.ecosystem ≠ target.ecosystem.asStr ∨
        m.locator ≠ target.locator ∨
        m.requested_revision ≠ target.requested_revision) →
      ∃ e, (hydrate_git_source env target).1 = .error e) ∧
    (∀ (env : HydrateEnv) (target : GitPullTarget) (m : RemoteSourceMetadata) (u : Unit),
      env.metaRead = .okMeta m → validate_metadata target m = .ok u →
      env.checkoutExists = true → env.linkOk = true →
      hydrate_git_source env target =
        (.ok (.alreadyPresent ("sources/".toList ++ cache_key target.ecosystem
            target.locator target.requested_revision m.source_fingerprint)),
          ⟨true, some ("sources/".toList ++ cache_key target.ecosystem
            target.locator target.requested_revision m.source_fingerprint)⟩)) ∧
    (∀ (env : HydrateEnv) (target : GitPullTarget) (m : RemoteSourceMetadata) (u : Unit),
      env.metaRead = .okMeta m → validate_metadata target m = .ok u →
      env.checkoutExists = false → env.archiveRead = .okArchive →
      env.unpackOk = false →
      hydrate_git_source env target =
        (.error .unpackError, ⟨false, env.initialSymlink⟩)) ∧
    (∀ (env : HydrateEnv) (target : GitPullTarget) (m : RemoteSourceMetadata) (u : Unit),
      env.metaRead = .okMeta m → validate_metadata target m = .ok u →
      env.checkoutExists = false → env.archiveRead = .okArchive →
      env.unpackOk = true → env.linkOk = true →
      hydrate_git_source env target =
        (.ok (.hydrated ("sources/".toList ++ cache_key target.ecosystem
            target.locator target.requested_revision m.source_fingerprint)),
          ⟨true, some ("sources/".toList ++ cache_key target.ecosystem
            target.locator target.requested_revision m.source_fingerprint)⟩)) := by
  refine ⟨?_, ?_, ?_, ?_, ?_⟩
  · intro env target
    constructor
    · intro h
      cases hm : env.metaRead with
      | notFound => rfl
      | readErr => simp [hydrate_git_source, hm] at h
      | parseErr => simp [hydrate_git_source, hm] at h
      | okMeta m =>
          exfalso
          cases hv : validate_metadata target m with
          | error e => simp [hydrate_git_source, hm, hv] at h
          | ok u =>
              by_cases hc : env.checkoutExists
              · by_cases hl : env.linkOk
                · simp [hydrate_git_source, hm, hv, hc, hl] at h
                · simp [hydrate_git_source, hm, hv, hc, hl] at h
              · cases ha : env.archiveRead with
                | archiveErr => simp [hydrate_git_source, hm, hv, hc, ha] at h
                | okArchive =>
                    by_cases hu : env.unpackOk
                    · by_cases hl : env.linkOk
                      · simp [hydrate_git_source, hm, hv, hc, ha, hu, hl,
                          unpack_archive_into_dir] at h
                      · simp [hydrate_git_source, hm, hv, hc, ha, hu, hl,
                          unpack_archive_into_dir] at h
                    · simp [hydrate_git_source, hm, hv, hc, ha, hu,
                        unpack_archive_into_dir] at h
    · intro h
      simp [hydrate_git_source, h]
  · intro env target m hm hmis
    cases hv : validate_metadata target m with
    | error e =>
        refine ⟨.invalidMetadata e, ?_⟩
        simp [hydrate_git_source, hm, hv]
    | ok u =>
        exfalso
        obtain ⟨h1, h2, h3, h4⟩ := validate_metadata_ok target m u hv
        rcases hmis with h | h | h | h
        · exact h h1
        · exact h h2
        · exact h h3
        · exact h h4
  · intro env target m u hm hv hc hl
    simp [hydrate_git_source, hm, hv, hc, hl]
  · intro env target m u hm hv hc ha hu
    simp [hydrate_git_source, hm, hv, hc, ha, hu, unpack_archive_into_dir]
  · intro env target m u hm hv hc ha hu hl
    simp [hydrate_git_source, hm, hv, hc, ha, hu, hl, unpack_archive_into_dir]

/-- Witness for C6: a not-found read and a concrete already-present hydrate. -/
theorem C6_hydrate_outcomes_witness :
    (hydrate_git_source ⟨.notFound, false, none, .okArchive, true, true⟩
        ⟨.git, "u".toList, "u".toList, "r".toList⟩).1 = .ok .notFoundOutcome ∧
    hydrate_git_source
        ⟨.okMeta ⟨1, "git".toList, "u".toList, "u".toList, "r".toList,
          "f".toList, "k".toList⟩, true, none, .okArchive, true, true⟩
        ⟨.git, "u".toList, "u".toList, "r".toList⟩ =
      (.ok (.alreadyPresent ("sources/".toList ++ cache_key Ecosystem.git
          "u".toList "r".toList "f".toList)),
        ⟨true, some ("sources/".toList ++ cache_key Ecosystem.git
          "u".toList "r".toList "f".toList)⟩) :=
  ⟨(C6_hydrate_outcomes.1 ⟨.notFound, false, none, .okArchive, true, true⟩
      ⟨.git, "u".toList, "u".toList, "r".toList⟩).mpr rfl,
    C6_hydrate_outcomes.2.2.1
      ⟨.okMeta ⟨1, "git".toList, "u".toList, "u".toList, "r".toList,
        "f".toList, "k".toList⟩, true, none, .okArchive, true, true⟩
      ⟨.git, "u".toList, "u".toList, "r".toList⟩
      ⟨1, "git".toList, "u".toList, "u".toList, "r".toList, "f".toList, "k".toList⟩
      () rfl rfl rfl rfl⟩

/-- The base64 table and its inverse cancel on all sextets. -/
theorem b64Sextet_b64Char : ∀ n, n < 64 → b64Sextet (b64Char n) = some n := by decide

/-- Decoding inverts encoding on byte sequences. -/
theorem decodeB64_encodeB64 : ∀ (l : List Nat), (∀ b ∈ l, b < 256) →
    decodeB64 (encodeB64 l) = some l
  | [], _ => rfl
  | [b1], h => by
      have h1 : b1 < 256 := h b1 (by simp)
      have e1 : b64Sextet (b64Char (b1 / 4)) = some (b1 / 4) :=
        b64Sextet_b64Char _ (by omega)
      have e2 : b64Sextet (b64Char (b1 % 4 * 16)) = some (b1 % 4 * 16) :=
        b64Sextet_b64Char _ (by omega)
      simp [encodeB64, decodeB64, e1, e2]
      omega
  | [b1, b2], h => by
      have h1 : b1 < 256 := h b1 (by simp)
      have h2 : b2 < 256 := h b2 (by simp)
      have e1 : b64Sextet (b64Char (b1 / 4)) = some (b1 / 4) :=
        b64Sextet_b64Char _ (by omega)
      have e2 : b64Sextet (b64Char (b1 % 4 * 16 + b2 / 16)) =
          some (b1 % 4 * 16 + b2 / 16) := b64Sextet_b64Char _ (by omega)
      have e3 : b64Sextet (b64Char (b2 % 16 * 4)) = some (b2 % 16 * 4) :=
        b64Sextet_b64Char _ (by omega)
      simp [encodeB64, decodeB64, e1, e2, e3]
      omega
  | b1 :: b2 :: b3 :: rest, h => by
      have h1 : b1 < 256 := h b1 (by simp)
      have h2 : b2 < 256 := h b2 (by simp)
      have h3 : b3 < 256 := h b3 (by simp)
      have hrest : ∀ b ∈ rest, b < 256 := fun b hb => h b (by simp [hb])
      have e1 : b64Sextet (b64Char (b1 / 4)) = some (b1 / 4) :=
        b64Sextet_b64Char _ (by omega)
      have e2 : b64Sextet (b64Char (b1 % 4 * 16 + b2 / 16)) =
          some (b1 % 4 * 16 + b2 / 16) := b64Sextet_b64Char _ (by omega)
      have e3 : b64Sextet (b64Char (b2 % 16 * 4 + b3 / 64)) =
          some (b2 % 16 * 4 + b3 / 64) := b64Sextet_b64Char _ (by omega)
      have e4 : b64Sextet (b64Char (b3 % 64)) = some (b3 % 64) :=
        b64Sextet_b64Char _ (by omega)
      have erec := decodeB64_encodeB64 rest hrest
      simp [encodeB64, decodeB64, e1, e2, e3, e4, erec]
      omega

/-- Characters with equal code points are equal. -/
theorem charToNat_inj {c1 c2 : Char} (h : c1.toNat = c2.toNat) : c1 = c2 := by
  have h2 := Char.ofNat_toNat c1
  rw [h] at h2
  rw [← h2, Char.ofNat_toNat]

/-- Valid scalar values: below the surrogate range or between it and the
Unicode upper bound. -/
theorem char_valid_bounds (c : Char) :
    c.toNat < 55296 ∨ (57344 ≤ c.toNat ∧ c.toNat < 1114112) := by
  rcases c.valid with h | h
  · left
    exact h
  · right
    exact h

/-- The four shapes of `utf8EncodeChar`, by code point range. -/
theorem utf8EncodeChar_cases (c : Char) :
    (c.toNat < 128 ∧ utf8EncodeChar c = [c.toNat]) ∨
    (128 ≤ c.toNat ∧ c.toNat < 2048 ∧
      utf8EncodeChar c = [192 + c.toNat / 64, 128 + c.toNat % 64]) ∨
    (2048 ≤ c.toNat ∧ c.toNat < 65536 ∧
      utf8EncodeChar c =
        [224 + c.toNat / 4096, 128 + c.toNat / 64 % 64, 128 + c.toNat % 64]) ∨
    (65536 ≤ c.toNat ∧ c.toNat < 1114112 ∧
      utf8EncodeChar c =
        [240 + c.toNat / 262144, 128 + c.toNat / 4096 % 64,
          128 + c.toNat / 64 % 64, 128 + c.toNat % 64]) := by
  have hv := char_valid_bounds c
  by_cases h1 : c.toNat < 128
  · left
    exact ⟨h1, by simp only [utf8EncodeChar]; rw [if_pos h1]⟩
  · by_cases h2 : c.toNat < 2048
    · right; left
      exact ⟨by omega, h2, by simp only [utf8EncodeChar]; rw [if_neg h1, if_pos h2]⟩
    · by_cases h3 : c.toNat < 65536
      · right; right; left
        exact ⟨by omega, h3,
          by simp only [utf8EncodeChar]; rw [if_neg h1, if_neg h2, if_pos h3]⟩
      · right; right; right
        exact ⟨by omega, by omega,
          by simp only [utf8EncodeChar]; rw [if_neg h1, if_neg h2, if_neg h3]⟩

/-- A UTF-8 character encoding is never empty. -/
theorem utf8EncodeChar_ne_nil (c : Char) : utf8EncodeChar c ≠ [] := by
  rcases utf8EncodeChar_cases c with ⟨_, he⟩ | ⟨_, _, he⟩ | ⟨_, _, he⟩ | ⟨_, _, he⟩ <;>
    simp [he]

/-- UTF-8 is a prefix code: equal streams decompose identically at the first
character. -/
theorem utf8EncodeChar_append_inj (c1 c2 : Char) (r1 r2 : List Nat)
    (h : utf8EncodeChar c1 ++ r1 = utf8EncodeChar c2 ++ r2) : c1 = c2 ∧ r1 = r2 := by
  rcases utf8EncodeChar_cases c1 with ⟨hb1, he1⟩ | ⟨hb1, hb1b, he1⟩ |
    ⟨hb1, hb1b, he1⟩ | ⟨hb1, hb1b, he1⟩ <;>
  rcases utf8EncodeChar_cases c2 with ⟨hb2, he2⟩ | ⟨hb2, hb2b, he2⟩ |
    ⟨hb2, hb2b, he2⟩ | ⟨hb2, hb2b, he2⟩ <;>
  rw [he1, he2] at h <;>
  simp only [List.cons_append, List.nil_append, List.cons.injEq] at h <;>
  first
  | (exfalso; omega)
  | (rcases h with ⟨e1, er⟩; exact ⟨charToNat_inj (by omega), er⟩)
  | (rcases h with ⟨e1, e2, er⟩; exact ⟨charToNat_inj (by omega), er⟩)
  | (rcases h with ⟨e1, e2, e3, er⟩; exact ⟨charToNat_inj (by omega), er⟩)
  | (rcases h with ⟨e1, e2, e3, e4, er⟩; exact ⟨charToNat_inj (by omega), er⟩)

/-- UTF-8 encoding of strings is injective. -/
theorem utf8Bytes_inj : ∀ (s1 s2 : Str), utf8Bytes s1 = utf8Bytes s2 → s1 = s2
  | [], [], _ => rfl
  | [], c :: s2, h => by
      exfalso
      have hne := utf8EncodeChar_ne_nil c
      have h2 : ([] : List Nat) = utf8EncodeChar c ++ utf8Bytes s2 := h
      rw [eq_comm, List.append_eq_nil] at h2
      exact hne h2.1
  | c :: s1, [], h => by
      exfalso
      have hne := utf8EncodeChar_ne_nil c
      have h2 : utf8EncodeChar c ++ utf8Bytes s1 = ([] : List Nat) := h
      rw [List.append_eq_nil] at h2
      exact hne h2.1
  | c1 :: s1, c2 :: s2, h => by
      have h2 : utf8EncodeChar c1 ++ utf8Bytes s1 =
          utf8EncodeChar c2 ++ utf8Bytes s2 := h
      obtain ⟨hc, hr⟩ := utf8EncodeChar_append_inj c1 c2 _ _ h2
      rw [hc, utf8Bytes_inj s1 s2 hr]

/-- Every UTF-8 byte is below 256. -/
theorem utf8Bytes_lt : ∀ (s : Str), ∀ b ∈ utf8Bytes s, b < 256 := by
  intro s
  induction s with
  | nil => intro b hb; exact absurd hb (List.not_mem_nil b)
  | cons c rest ih =>
      intro b hb
      have hb2 : b ∈ utf8EncodeChar c ++ utf8Bytes rest := hb
      rcases List.mem_append.mp hb2 with hc | hr
      · rcases utf8EncodeChar_cases c with ⟨hb1, he⟩ | ⟨hb1, hb1b, he⟩ |
          ⟨hb1, hb1b, he⟩ | ⟨hb1, hb1b, he⟩ <;>
          rw [he] at hc <;>
          simp only [List.mem_cons, List.not_mem_nil, or_false] at hc
        · omega
        · rcases hc with h | h <;> omega
        · rcases hc with h | h | h <;> omega
        · rcases hc with h | h | h | h <;> omega
      · exact ih b hr

/-- Decoding one character inverts character-level UTF-8 encoding. -/
theorem utf8DecodeChar_encode (c : Char) (t : List Nat) :
    utf8DecodeChar (utf8EncodeChar c ++ t) = some (c.toNat, t) := by
  rcases utf8EncodeChar_cases c with ⟨h1, he⟩ | ⟨h1, h1b, he⟩ |
    ⟨h1, h1b, he⟩ | ⟨h1, h1b, he⟩
  · rw [he, List.singleton_append]
    simp only [utf8DecodeChar]
    rw [if_pos h1]
  · rw [he]
    simp only [List.cons_append, List.singleton_append, List.nil_append]
    simp only [utf8DecodeChar]
    have hA : ¬ (192 + c.toNat / 64 < 128) := by omega
    have hB : 194 ≤ 192 + c.toNat / 64 ∧ 192 + c.toNat / 64 ≤ 223 := by omega
    rw [if_neg hA, if_pos hB]
    simp only [twoByteCont]
    have hC : 128 ≤ 128 + c.toNat % 64 ∧ 128 + c.toNat % 64 < 192 := by omega
    rw [if_pos hC]
    have hN : (192 + c.toNat / 64 - 192) * 64 + (128 + c.toNat % 64 - 128)
        = c.toNat := by omega
    rw [hN]
  · rw [he]
    simp only [List.cons_append, List.singleton_append, List.nil_append]
    simp only [utf8DecodeChar]
    have hA : ¬ (224 + c.toNat / 4096 < 128) := by omega
    have hB : ¬ (194 ≤ 224 + c.toNat / 4096 ∧ 224 + c.toNat / 4096 ≤ 223) := by omega
    have hC : 224 ≤ 224 + c.toNat / 4096 ∧ 224 + c.toNat / 4096 ≤ 239 := by omega
    rw [if_neg hA, if_neg hB, if_pos hC]
    simp only [threeByteCont]
    have h4 : (if 224 + c.toNat / 4096 = 224 then
          160 ≤ 128 + c.toNat / 64 % 64 ∧ 128 + c.toNat / 64 % 64 < 192
        else if 224 + c.toNat / 4096 = 237 then
          128 ≤ 128 + c.toNat / 64 % 64 ∧ 128 + c.toNat / 64 % 64 < 160
        else 128 ≤ 128 + c.toNat / 64 % 64 ∧ 128 + c.toNat / 64 % 64 < 192) ∧
        128 ≤ 128 + c.toNat % 64 ∧ 128 + c.toNat % 64 < 192 := by
      refine ⟨?_, by omega, by omega⟩
      by_cases h224 : 224 + c.toNat / 4096 = 224
      · rw [if_pos h224]
        omega
      · rw [if_neg h224]
        by_cases h237 : 224 + c.toNat / 4096 = 237
        · rw [if_pos h237]
          rcases char_valid_bounds c with hv | hv <;> omega
        · rw [if_neg h237]
          omega
    rw [if_pos h4]
    have hN : (224 + c.toNat / 4096 - 224) * 4096 +
        (128 + c.toNat / 64 % 64 - 128) * 64 + (128 + c.toNat % 64 - 128)
        = c.toNat := by omega
    rw [hN]
  · rw [he]
    simp only [List.cons_append, List.singleton_append, List.nil_append]
    simp only [utf8DecodeChar]
    have hA : ¬ (240 + c.toNat / 262144 < 128) := by omega
    have hB : ¬ (194 ≤ 240 + c.toNat / 262144 ∧ 240 + c.toNat / 262144 ≤ 223) := by
      omega
    have hC : ¬ (224 ≤ 240 + c.toNat / 262144 ∧ 240 + c.toNat / 262144 ≤ 239) := by
      omega
    have hD : 240 ≤ 240 + c.toNat / 262144 ∧ 240 + c.toNat / 262144 ≤ 244 := by omega
    rw [if_neg hA, if_neg hB, if_neg hC, if_pos hD]
    simp only [fourByteCont]
    have h5 : (if 240 + c.toNat / 262144 = 240 then
          144 ≤ 128 + c.toNat / 4096 % 64 ∧ 128 + c.toNat / 4096 % 64 < 192
        else if 240 + c.toNat / 262144 = 244 then
          128 ≤ 128 + c.toNat / 4096 % 64 ∧ 128 + c.toNat / 4096 % 64 < 144
        else 128 ≤ 128 + c.toNat / 4096 % 64 ∧ 128 + c.toNat / 4096 % 64 < 192) ∧
        (128 ≤ 128 + c.toNat / 64 % 64 ∧ 128 + c.toNat / 64 % 64 < 192) ∧
        (128 ≤ 128 + c.toNat % 64 ∧ 128 + c.toNat % 64 < 192) := by
      refine ⟨?_, ⟨by omega, by omega⟩, by omega, by omega⟩
      by_cases h240 : 240 + c.toNat / 262144 = 240
      · rw [if_pos h240]
        omega
      · rw [if_neg h240]
        by_cases h244 : 240 + c.toNat / 262144 = 244
        · rw [if_pos h244]
          omega
        · rw [if_neg h244]
          omega
    rw [if_pos h5]
    have hN : (240 + c.toNat / 262144 - 240) * 262144 +
        (128 + c.toNat / 4096 % 64 - 128) * 4096 +
        (128 + c.toNat / 64 % 64 - 128) * 64 + (128 + c.toNat % 64 - 128)
        = c.toNat := by omega
    rw [hN]

/-- With enough fuel, iterated decoding inverts string-level UTF-8 encoding. -/
theorem utf8DecodeFuel_utf8Bytes : ∀ (s : Str) (fuel : Nat),
    (utf8Bytes s).length ≤ fuel → utf8DecodeFuel fuel (utf8Bytes s) = some s := by
  intro s
  induction s with
  | nil =>
      intro fuel _
      cases fuel <;> rfl
  | cons c rest ih =>
      intro fuel hlen
      have hshape : utf8Bytes (c :: rest) = utf8EncodeChar c ++ utf8Bytes rest := rfl
      obtain ⟨b, l2, hb⟩ : ∃ b l2, utf8EncodeChar c = b :: l2 := by
        cases hE : utf8EncodeChar c with
        | nil => exact absurd hE (utf8EncodeChar_ne_nil c)
        | cons x xs => exact ⟨x, xs, rfl⟩
      have hlen2 : (utf8Bytes (c :: rest)).length =
          (utf8EncodeChar c).length + (utf8Bytes rest).length := by
        rw [hshape, List.length_append]
      have hpos : 0 < (utf8EncodeChar c).length := by
        rw [hb]
        simp
      cases fuel with
      | zero => omega
      | succ f =>
          rw [hshape, hb, List.cons_append, utf8DecodeFuel,
            ← List.cons_append, ← hb, utf8DecodeChar_encode, Option.some_bind]
          have hrest : (utf8Bytes rest).length ≤ f := by omega
          dsimp only
          rw [ih f hrest]
          simp [Char.ofNat_toNat]

/-- Decoding inverts string-level UTF-8 encoding. -/
theorem utf8Decode_utf8Bytes (s : Str) : utf8Decode (utf8Bytes s) = some s :=
  utf8DecodeFuel_utf8Bytes s _ (le_refl _)

/-- Stripping a prefix off the string it prefixes yields the remainder. -/
theorem stripPrefixStr_append (pre x : Str) :
    stripPrefixStr pre (pre ++ x) = some x := by
  unfold stripPrefixStr
  rw [if_pos ((List.isPrefixOf_iff_prefix).mpr (List.prefix_append pre x))]
  rw [List.drop_left]

/-- Denormalization inverts normalization. -/
theorem denormalize_normalize_locator (s : Str) :
    denormalize_locator (normalize_locator s) = some s := by
  have h2 := decodeB64_encodeB64 (utf8Bytes s) (utf8Bytes_lt s)
  have h3 := utf8Decode_utf8Bytes s
  simp only [denormalize_locator, normalize_locator]
  rw [stripPrefixStr_append]
  simp [h2, h3]

/-- Locator normalization is injective. -/
theorem normalize_locator_inj {s1 s2 : Str}
    (h : normalize_locator s1 = normalize_locator s2) : s1 = s2 := by
  have e1 := denormalize_normalize_locator s1
  rw [h, denormalize_normalize_locator s2] at e1
  exact (Option.some.inj e1).symm

/-- C8: for every string s, denormalize_locator (normalize_locator s)
returns s, normalize_locator is injective, and denormalize_locator returns
none on any input that does not start with b64_. -/
theorem C8_normalize_denormalize_roundtrip :
    (∀ s : Str, denormalize_locator (normalize_locator s) = some s) ∧
    (∀ s1 s2 : Str, normalize_locator s1 = normalize_locator s2 → s1 = s2) ∧
    (∀ t : Str, ¬ (("b64_".toList).isPrefixOf t = true) →
      denormalize_locator t = none) := by
  refine ⟨denormalize_normalize_locator, fun s1 s2 h => normalize_locator_inj h, ?_⟩
  intro t ht
  have ht2 : ¬ (('b' :: '6' :: '4' :: '_' :: []) <+: t) := fun hp =>
    ht (List.isPrefixOf_iff_prefix.mpr hp)
  simp [denormalize_locator, stripPrefixStr, ht2]

theorem C8_normalize_denormalize_roundtrip_witness :
    denormalize_locator (normalize_locator ('a' :: 'b' :: [])) =
      some ('a' :: 'b' :: []) ∧
    ('a' :: []) = ('a' :: []) ∧
    denormalize_locator ('x' :: []) = none :=
  ⟨C8_normalize_denormalize_roundtrip.1 _,
   C8_normalize_denormalize_roundtrip.2.1 _ _ rfl,
   C8_normalize_denormalize_roundtrip.2.2 _ (by decide)⟩

/-- The base64url alphabet (and its out-of-range default) never yields `/`. -/
theorem b64Char_ne_slash (n : Nat) : b64Char n ≠ '/' := by
  by_cases h : n < 64
  · exact (by decide : ∀ m, m < 64 → b64Char m ≠ '/') n h
  · unfold b64Char
    rw [List.getD_eq_default]
    · decide
    · have hlen : b64Alphabet.length = 64 := by decide
      omega

/-- Base64url encodings never contain `/`. -/
theorem encodeB64_ne_slash : ∀ (l : List Nat), ∀ c ∈ encodeB64 l, c ≠ '/'
  | [], c, hc => by simp [encodeB64] at hc
  | [b1], c, hc => by
      simp only [encodeB64, List.mem_cons, List.not_mem_nil, or_false] at hc
      rcases hc with h | h <;> (subst h; exact b64Char_ne_slash _)
  | [b1, b2], c, hc => by
      simp only [encodeB64, List.mem_cons, List.not_mem_nil, or_false] at hc
      rcases hc with h | h | h <;> (subst h; exact b64Char_ne_slash _)
  | b1 :: b2 :: b3 :: rest, c, hc => by
      simp only [encodeB64, List.mem_cons] at hc
      rcases hc with h | h | h | h | h
      · subst h; exact b64Char_ne_slash _
      · subst h; exact b64Char_ne_slash _
      · subst h; exact b64Char_ne_slash _
      · subst h; exact b64Char_ne_slash _
      · exact encodeB64_ne_slash rest c h

/-- A normalized locator is always a well-formed path segment. -/
theorem normalize_locator_wfSeg (loc : Str) : wfSeg (normalize_locator loc) := by
  refine ⟨by simp [normalize_locator], ?_, ?_⟩
  · intro c hc
    rcases List.mem_append.mp hc with h | h
    · have h2 : c ∈ ('b' :: '6' :: '4' :: '_' :: []) := h
      simp only [List.mem_cons, List.not_mem_nil, or_false] at h2
      rcases h2 with h2 | h2 | h2 | h2 <;> (subst h2; decide)
    · exact encodeB64_ne_slash _ c h
  · intro h
    have := congrArg List.length h
    simp [normalize_locator, List.length_append] at this

/-- `splitChar` never returns an empty field list. -/
theorem splitChar_ne_nil (sep : Char) : ∀ (s : Str), splitChar sep s ≠ []
  | [] => List.cons_ne_nil [] []
  | c :: rest => by
      simp only [splitChar]
      split
      · simp
      · split <;> simp

/-- Splitting a separator-free string yields the single field. -/
theorem splitChar_no_sep (sep : Char) :
    ∀ (s : Str), (∀ c ∈ s, c ≠ sep) → splitChar sep s = [s]
  | [], _ => rfl
  | c :: rest, h => by
      have hc : ¬ (c = sep) := h c (List.mem_cons_self c rest)
      have hr := splitChar_no_sep sep rest (fun x hx => h x (List.mem_cons_of_mem c hx))
      simp only [splitChar]
      rw [if_neg hc, hr]

/-- Splitting peels off a separator-free leading field. -/
theorem splitChar_append (sep : Char) :
    ∀ (a rest : Str), (∀ c ∈ a, c ≠ sep) →
      splitChar sep (a ++ sep :: rest) = a :: splitChar sep rest
  | [], rest, _ => by
      rw [List.nil_append]
      simp [splitChar]
  | c :: a, rest, h => by
      have hc : ¬ (c = sep) := h c (List.mem_cons_self c a)
      have hr := splitChar_append sep a rest (fun x hx => h x (List.mem_cons_of_mem c hx))
      simp only [List.cons_append, splitChar, List.append_eq]
      rw [if_neg hc, hr]

/-- Splitting distributes over concatenation at a separator. -/
theorem splitChar_append_any (sep : Char) :
    ∀ (x y : Str),
      splitChar sep (x ++ sep :: y) = splitChar sep x ++ splitChar sep y
  | [], y => by
      rw [List.nil_append]
      simp [splitChar]
  | c :: x, y => by
      by_cases hc : c = sep
      · subst hc
        show splitChar c (c :: (x ++ c :: y)) = splitChar c (c :: x) ++ splitChar c y
        simp only [splitChar, List.append_eq]
        rw [if_true, if_true, splitChar_append_any c x y]
        rfl
      · have hr := splitChar_append_any sep x y
        have hne := splitChar_ne_nil sep x
        simp only [List.cons_append, splitChar, List.append_eq]
        rw [if_neg hc, if_neg hc, hr]
        cases hx : splitChar sep x with
        | nil => exact absurd hx hne
        | cons fi fs => simp

/-- Joining the fields of a split on `/` restores the string. -/
theorem joinSlash_splitChar : ∀ (s : Str), joinSlash (splitChar '/' s) = s
  | [] => rfl
  | c :: s => by
      have hjs := joinSlash_splitChar s
      by_cases hc : c = '/'
      · subst hc
        simp only [splitChar, List.append_eq]
        rw [if_true]
        cases hx : splitChar '/' s with
        | nil => exact absurd hx (splitChar_ne_nil '/' s)
        | cons fi fs =>
            rw [hx] at hjs
            show [] ++ '/' :: joinSlash (fi :: fs) = '/' :: s
            rw [hjs]
            rfl
      · simp only [splitChar, List.append_eq]
        rw [if_neg hc]
        cases hx : splitChar '/' s with
        | nil => exact absurd hx (splitChar_ne_nil '/' s)
        | cons fi fs =>
            rw [hx] at hjs
            cases fs with
            | nil =>
                show (c :: fi : Str) = c :: s
                have hfs : fi = s := hjs
                rw [hfs]
            | cons f2 fs2 =>
                show (c :: fi) ++ '/' :: joinSlash (f2 :: fs2) = c :: s
                have hfs : fi ++ '/' :: joinSlash (f2 :: fs2) = s := hjs
                rw [List.cons_append, hfs]

/-- Joining concatenated non-empty component lists. -/
theorem joinSlash_append : ∀ (xs ys : List Str), xs ≠ [] → ys ≠ [] →
    joinSlash (xs ++ ys) = joinSlash xs ++ '/' :: joinSlash ys
  | [], _, hx, _ => absurd rfl hx
  | [x], ys, _, hy => by
      cases ys with
      | nil => exact absurd rfl hy
      | cons y ys2 => rfl
  | x :: x2 :: xs, ys, _, hy => by
      have hr := joinSlash_append (x2 :: xs) ys (by simp) hy
      show x ++ '/' :: joinSlash ((x2 :: xs) ++ ys)
        = (x ++ '/' :: joinSlash (x2 :: xs)) ++ '/' :: joinSlash ys
      rw [hr]
      simp [List.append_assoc]

/-- Lists with equal singleton suffixes agree componentwise. -/
theorem append_singleton_inj {α : Type} {xs ys : List α} {a b : α}
    (h : xs ++ [a] = ys ++ [b]) : xs = ys ∧ a = b := by
  have h2 := congrArg List.reverse h
  simp only [List.reverse_append, List.reverse_singleton, List.singleton_append,
    List.cons.injEq] at h2
  obtain ⟨hab, hrev⟩ := h2
  exact ⟨List.reverse_injective hrev, hab⟩

/-- A cache key splits on `/` into the ecosystem segment, the normalized
locator segment, the fields of the version, and the fingerprint segment. -/
theorem splitChar_cache_key (e : Ecosystem) (loc v f : Str)
    (he : ∀ c ∈ e.asStr, c ≠ '/') (hf : ∀ c ∈ f, c ≠ '/') :
    splitChar '/' (cache_key e loc v f) =
      e.asStr :: normalize_locator loc :: (splitChar '/' v ++ [f]) := by
  have hn := (normalize_locator_wfSeg loc).2.1
  unfold cache_key
  simp only [List.append_assoc, List.cons_append]
  rw [splitChar_append _ _ _ he, splitChar_append _ _ _ hn,
    splitChar_append_any, splitChar_no_sep _ _ hf]

/-- Cache keys whose ecosystem strings and fingerprints are slash-free share
a key only when ecosystem string, locator, version and fingerprint all
coincide, with no constraint on the version. -/
theorem cache_key_inj {e1 e2 : Ecosystem} {loc1 loc2 v1 v2 f1 f2 : Str}
    (he1 : ∀ c ∈ e1.asStr, c ≠ '/') (hf1 : ∀ c ∈ f1, c ≠ '/')
    (he2 : ∀ c ∈ e2.asStr, c ≠ '/') (hf2 : ∀ c ∈ f2, c ≠ '/')
    (h : cache_key e1 loc1 v1 f1 = cache_key e2 loc2 v2 f2) :
    e1.asStr = e2.asStr ∧ loc1 = loc2 ∧ v1 = v2 ∧ f1 = f2 := by
  have hs := congrArg (splitChar '/') h
  rw [splitChar_cache_key e1 loc1 v1 f1 he1 hf1,
    splitChar_cache_key e2 loc2 v2 f2 he2 hf2] at hs
  simp only [List.cons.injEq] at hs
  obtain ⟨hA, hB, hS⟩ := hs
  obtain ⟨hSv, hfv⟩ := append_singleton_inj hS
  have hv : v1 = v2 := by
    have hj := congrArg joinSlash hSv
    rwa [joinSlash_splitChar, joinSlash_splitChar] at hj
  exact ⟨hA, normalize_locator_inj hB, hv, hfv⟩

/-- Re-deriving the cache key from a well-formed checkout path is the
identity, also for multi-segment revisions. -/
theorem rederive_cache_key (e : Ecosystem) (loc v f : Str)
    (he : wfSeg e.asStr) (hv : pathClean v) (hf : wfSeg f) :
    cache_key_from_checkout_path (cache_key e loc v f) =
      some (cache_key e loc v f) := by
  have hn := normalize_locator_wfSeg loc
  have hsplit := splitChar_cache_key e loc v f he.2.1 hf.2.1
  have hfilter : List.filter (fun seg => decide ¬ (seg = [] ∨ seg = ['.']))
      (normalize_locator loc :: (splitChar '/' v ++ [f]))
      = normalize_locator loc :: (splitChar '/' v ++ [f]) := by
    apply List.filter_eq_self.mpr
    intro seg hseg
    apply decide_eq_true
    intro hor
    rcases List.mem_cons.mp hseg with hs | hs
    · subst hs
      exact hor.elim hn.1 hn.2.2
    · rcases List.mem_append.mp hs with hs2 | hs2
      · exact hor.elim (hv seg hs2).1 (hv seg hs2).2
      · have hsf : seg = f := List.mem_singleton.mp hs2
        subst hsf
        exact hor.elim hf.1 hf.2.2
  have hcomps : pathComponents (cache_key e loc v f)
      = e.asStr :: normalize_locator loc :: (splitChar '/' v ++ [f]) := by
    unfold pathComponents
    rw [hsplit]
    dsimp only
    rw [hfilter, if_neg he.1]
  have hjrest : joinSlash (normalize_locator loc :: (splitChar '/' v ++ [f]))
      = normalize_locator loc ++ '/' :: (v ++ '/' :: f) := by
    have h1 : joinSlash (splitChar '/' v ++ [f]) = v ++ '/' :: f := by
      rw [joinSlash_append _ _ (splitChar_ne_nil '/' v) (by simp),
        joinSlash_splitChar]
      rfl
    have h2 := joinSlash_append [normalize_locator loc] (splitChar '/' v ++ [f])
      (by simp)
      (by
        intro hnil
        exact absurd (List.append_eq_nil.mp hnil).1 (splitChar_ne_nil '/' v))
    rw [List.singleton_append] at h2
    rw [h2, h1]
    rfl
  unfold cache_key_from_checkout_path
  rw [hcomps]
  show some (joinSlash
      (e.asStr :: normalize_locator loc :: (splitChar '/' v ++ [f])))
    = some (cache_key e loc v f)
  have houter : joinSlash
      (e.asStr :: normalize_locator loc :: (splitChar '/' v ++ [f]))
      = e.asStr ++ '/' :: joinSlash
          (normalize_locator loc :: (splitChar '/' v ++ [f])) := rfl
  rw [houter, hjrest]
  show some (e.asStr ++ '/' :: (normalize_locator loc ++ '/' :: (v ++ '/' :: f)))
    = some (cache_key e loc v f)
  simp [cache_key, List.append_assoc]

/-- The link path depends on the ecosystem only through its string form. -/
theorem link_path_congr {e1 e2 : Ecosystem} {loc1 loc2 v1 v2 : Str}
    (he : e1.asStr = e2.asStr) (hl : loc1 = loc2) (hv : v1 = v2) :
    link_path e1 loc1 v1 = link_path e2 loc2 v2 := by
  simp only [link_path, he, hl, hv]

/-- A well-formed cache key determines its link path. -/
theorem wf_key_link_unique {k l1 l2 : Str}
    (h1 : WfKeyLink k l1) (h2 : WfKeyLink k l2) : l1 = l2 := by
  obtain ⟨e1, loc1, v1, f1, hw1, hv1, hf1, hk1, hl1⟩ := h1
  obtain ⟨e2, loc2, v2, f2, hw2, hv2, hf2, hk2, hl2⟩ := h2
  have hkey : cache_key e1 loc1 v1 f1 = cache_key e2 loc2 v2 f2 := by
    rw [← hk1, ← hk2]
  obtain ⟨hA, hB, hC, _⟩ :=
    cache_key_inj hw1.2.1 hf1.2.1 hw2.2.1 hf2.2.1 hkey
  rw [hl1, hl2]
  exact link_path_congr hA hB hC

/-- The empty state satisfies the invariant. -/
theorem C1Inv_empty : C1Inv emptyC1State := by
  constructor
  · intro p d e h
    exact absurd h (by simp [emptyC1State])
  · intro p l k h
    exact absurd h (by simp [emptyC1State])

/-- Membership survives `BTreeSet::insert`. -/
theorem mem_insertProj {q p : Str} {ps : List Str} (h : q ∈ ps) :
    q ∈ insertProj p ps := by
  unfold insertProj
  split
  · exact h
  · exact List.mem_cons_of_mem p h

/-- The inserted element is a member. -/
theorem mem_insertProj_self (p : Str) (ps : List Str) : p ∈ insertProj p ps := by
  unfold insertProj
  split
  · assumption
  · exact List.mem_cons_self p ps

/-- Other members survive `BTreeSet::remove`. -/
theorem mem_removeProj {q p : Str} {ps : List Str} (h : q ∈ ps) (hne : q ≠ p) :
    q ∈ removeProj p ps := by
  unfold removeProj
  rw [List.mem_filter]
  exact ⟨h, decide_eq_true hne⟩

/-- The manifest view of a pull. -/
theorem pullOp_manifests (p : Str) (t : C1Target) (fp : Str) (st : C1State)
    (q d : Str) :
    (pullOp p t fp st).manifests q d =
      if q = p then
        if d = depSpecOf t then
          some (link_path t.ecosystem t.locator t.revision,
                cache_key t.ecosystem t.locator t.revision fp)
        else st.manifests q d
      else st.manifests q d := rfl

/-- The global index view of a pull. -/
theorem pullOp_global (p : Str) (t : C1Target) (fp : Str) (st : C1State)
    (k : Str) :
    (pullOp p t fp st).global k =
      if k = cache_key t.ecosystem t.locator t.revision fp then
        some (insertProj p
          (match st.global (cache_key t.ecosystem t.locator t.revision fp) with
            | some ps => ps
            | none => []))
      else st.global k := rfl

/-- The symlink view of a pull. -/
theorem pullOp_links (p : Str) (t : C1Target) (fp : Str) (st : C1State)
    (q l : Str) :
    (pullOp p t fp st).links q l =
      if q = p ∧ l = link_path t.ecosystem t.locator t.revision then
        some (cache_key t.ecosystem t.locator t.revision fp)
      else st.links q l := rfl

/-- Removing a link path with no symlink is a no-op. -/
theorem removeOp_of_none (p l : Str) (st : C1State) (h : st.links p l = none) :
    removeOp p l st = st := by
  unfold removeOp
  rw [h]

/-- Removing a linked path: the resulting state, spelled out. -/
theorem removeOp_of_some (p l : Str) (st : C1State) (kt ck : Str)
    (h : st.links p l = some kt)
    (hre : cache_key_from_checkout_path kt = some ck) :
    removeOp p l st =
      { manifests := fun q d =>
          if q = p then
            match st.manifests q d with
            | some e => if e.1 = l then none else some e
            | none => none
          else st.manifests q d
        global := fun k =>
          if k = ck then
            match st.global ck with
            | some ps =>
                if removeProj p ps = [] then none else some (removeProj p ps)
            | none => none
          else st.global k
        links := fun q l2 => if q = p ∧ l2 = l then none else st.links q l2 } := by
  unfold removeOp
  rw [h]
  dsimp only
  rw [hre]

/-- A pull with well-formed segments preserves the invariant. -/
theorem C1Inv_pull (p : Str) (t : C1Target) (fp : Str) (st : C1State)
    (hwf : wfSeg t.ecosystem.asStr ∧ pathClean t.revision ∧ wfSeg fp)
    (h : C1Inv st) : C1Inv (pullOp p t fp st) := by
  obtain ⟨hM, hL⟩ := h
  have hGlobal : ∀ (q e2 : Str), (∃ ps, st.global e2 = some ps ∧ q ∈ ps) →
      ∃ ps, (pullOp p t fp st).global e2 = some ps ∧ q ∈ ps := by
    intro q e2 hex
    obtain ⟨ps, hg, hmem⟩ := hex
    rw [pullOp_global]
    by_cases hk : e2 = cache_key t.ecosystem t.locator t.revision fp
    · rw [if_pos hk]
      refine ⟨_, rfl, ?_⟩
      have hg2 : st.global (cache_key t.ecosystem t.locator t.revision fp)
          = some ps := by
        rw [← hk]
        exact hg
      simp only [hg2]
      exact mem_insertProj hmem
    · rw [if_neg hk]
      exact ⟨ps, hg, hmem⟩
  constructor
  · intro q d e hq
    rw [pullOp_manifests] at hq
    by_cases hqp : q = p
    · rw [if_pos hqp] at hq
      by_cases hd : d = depSpecOf t
      · rw [if_pos hd] at hq
        have he : e = (link_path t.ecosystem t.locator t.revision,
            cache_key t.ecosystem t.locator t.revision fp) :=
          (Option.some.inj hq).symm
        subst he
        constructor
        · exact ⟨t.ecosystem, t.locator, t.revision, fp,
            hwf.1, hwf.2.1, hwf.2.2, rfl, rfl⟩
        · refine ⟨_, by rw [pullOp_global, if_pos rfl], ?_⟩
          rw [hqp]
          exact mem_insertProj_self p _
      · rw [if_neg hd] at hq
        obtain ⟨hwfkl, hex⟩ := hM q d e hq
        exact ⟨hwfkl, hGlobal q e.2 hex⟩
    · rw [if_neg hqp] at hq
      obtain ⟨hwfkl, hex⟩ := hM q d e hq
      exact ⟨hwfkl, hGlobal q e.2 hex⟩
  · intro q l k hq
    rw [pullOp_links] at hq
    by_cases hc : q = p ∧ l = link_path t.ecosystem t.locator t.revision
    · rw [if_pos hc] at hq
      have hk : k = cache_key t.ecosystem t.locator t.revision fp :=
        (Option.some.inj hq).symm
      subst hk
      rw [hc.2]
      exact ⟨t.ecosystem, t.locator, t.revision, fp,
        hwf.1, hwf.2.1, hwf.2.2, rfl, rfl⟩
    · rw [if_neg hc] at hq
      exact hL q l k hq

/-- A remove preserves the invariant. -/
theorem C1Inv_remove (p l : Str) (st : C1State) (h : C1Inv st) :
    C1Inv (removeOp p l st) := by
  obtain ⟨hM, hL⟩ := h
  cases hlk : st.links p l with
  | none =>
      rw [removeOp_of_none p l st hlk]
      exact ⟨hM, hL⟩
  | some kt =>
      obtain ⟨e0, loc0, v0, f0, hw0, hv0, hf0, hk0, hl0⟩ := hL p l kt hlk
      have hre : cache_key_from_checkout_path kt = some kt := by
        rw [hk0]
        exact rederive_cache_key e0 loc0 v0 f0 hw0 hv0 hf0
      rw [removeOp_of_some p l st kt kt hlk hre]
      constructor
      · intro q d e hq
        dsimp only at hq
        by_cases hqp : q = p
        · rw [if_pos hqp] at hq
          cases hman : st.manifests q d with
          | none =>
              rw [hman] at hq
              simp at hq
          | some e2 =>
              simp only [hman] at hq
              by_cases hel : e2.1 = l
              · rw [if_pos hel] at hq
                simp at hq
              · rw [if_neg hel] at hq
                have he : e = e2 := (Option.some.inj hq).symm
                subst he
                obtain ⟨hwfkl, ps, hg, hmem⟩ := hM q d e hman
                refine ⟨hwfkl, ?_⟩
                dsimp only
                by_cases hke : e.2 = kt
                · exfalso
                  exact hel (wf_key_link_unique (hke ▸ hwfkl)
                    ⟨e0, loc0, v0, f0, hw0, hv0, hf0, hk0, hl0⟩)
                · rw [if_neg hke]
                  exact ⟨ps, hg, hmem⟩
        · rw [if_neg hqp] at hq
          obtain ⟨hwfkl, ps, hg, hmem⟩ := hM q d e hq
          refine ⟨hwfkl, ?_⟩
          dsimp only
          by_cases hke : e.2 = kt
          · rw [if_pos hke]
            have hg2 : st.global kt = some ps := by
              rw [← hke]
              exact hg
            simp only [hg2]
            have hqps : q ∈ removeProj p ps := mem_removeProj hmem hqp
            have hne : removeProj p ps ≠ [] := List.ne_nil_of_mem hqps
            rw [if_neg hne]
            exact ⟨removeProj p ps, rfl, hqps⟩
          · rw [if_neg hke]
            exact ⟨ps, hg, hmem⟩
      · intro q l2 k hq
        dsimp only at hq
        by_cases hc : q = p ∧ l2 = l
        · rw [if_pos hc] at hq
          simp at hq
        · rw [if_neg hc] at hq
          exact hL q l2 k hq

/-- Any well-formed operation sequence preserves the invariant. -/
theorem C1Inv_ops : ∀ (ops : List C1Op) (st : C1State),
    (∀ o ∈ ops, wfOp o) → C1Inv st → C1Inv (applyOps ops st)
  | [], _, _, h => h
  | o :: ops, st, hwf, h => by
      have hstep : C1Inv (applyOp o st) := by
        cases o with
        | pull p t fp =>
            exact C1Inv_pull p t fp st (hwf _ (List.mem_cons_self _ _)) h
        | remove p l => exact C1Inv_remove p l st h
      exact C1Inv_ops ops (applyOp o st)
        (fun o2 ho2 => hwf o2 (List.mem_cons_of_mem _ ho2)) hstep

/-- C1 (amended): after any well-formed sequence of successful pull and
remove operations from empty indexes, every cache key listed by a project
manifest has an entry in the global ref index. -/
theorem C1_manifest_reference_in_global (ops : List C1Op)
    (hwf : ∀ o ∈ ops, wfOp o) (p d : Str) (e : Str × Str)
    (h : (applyOps ops emptyC1State).manifests p d = some e) :
    ((applyOps ops emptyC1State).global e.2).isSome := by
  obtain ⟨_, ps, hg, _⟩ :=
    (C1Inv_ops ops emptyC1State hwf C1Inv_empty).1 p d e h
  rw [hg]
  rfl

/-- Re-pulling the same target after its fingerprint changed leaves the old
cache key in the global index although no manifest references it: the
if-and-only-if form of the index integrity claim fails. -/
theorem C1_counterexample :
    (((applyOps
          [C1Op.pull "proj".toList
            ⟨Ecosystem.git, "u".toList, "u".toList, "r".toList⟩ "f1".toList,
           C1Op.pull "proj".toList
            ⟨Ecosystem.git, "u".toList, "u".toList, "r".toList⟩ "f2".toList]
          emptyC1State).global
        (cache_key Ecosystem.git "u".toList "r".toList "f1".toList)).isSome = true) ∧
    ∀ (q d : Str) (e : Str × Str),
      (applyOps
          [C1Op.pull "proj".toList
            ⟨Ecosystem.git, "u".toList, "u".toList, "r".toList⟩ "f1".toList,
           C1Op.pull "proj".toList
            ⟨Ecosystem.git, "u".toList, "u".toList, "r".toList⟩ "f2".toList]
          emptyC1State).manifests q d = some e →
      e.2 ≠ cache_key Ecosystem.git "u".toList "r".toList "f1".toList := by
  constructor
  · decide
  · intro q d e h
    have h2 : (pullOp "proj".toList
        ⟨Ecosystem.git, "u".toList, "u".toList, "r".toList⟩ "f2".toList
        (pullOp "proj".toList
          ⟨Ecosystem.git, "u".toList, "u".toList, "r".toList⟩ "f1".toList
          emptyC1State)).manifests q d = some e := h
    rw [pullOp_manifests] at h2
    by_cases hqp : q = "proj".toList
    · rw [if_pos hqp] at h2
      by_cases hd : d = depSpecOf
          ⟨Ecosystem.git, "u".toList, "u".toList, "r".toList⟩
      · rw [if_pos hd] at h2
        have he : e = (link_path Ecosystem.git "u".toList "r".toList,
            cache_key Ecosystem.git "u".toList "r".toList "f2".toList) :=
          (Option.some.inj h2).symm
        subst he
        exact fun hK => absurd hK (by decide)
      · rw [if_neg hd, pullOp_manifests, if_pos hqp, if_neg hd] at h2
        simp [emptyC1State] at h2
    · rw [if_neg hqp, pullOp_manifests, if_neg hqp] at h2
      simp [emptyC1State] at h2

theorem C1_manifest_reference_in_global_witness :
    ((applyOps
        [C1Op.pull "proj".toList
          ⟨Ecosystem.git, "u".toList, "u".toList, "refs/heads/main".toList⟩
          "f1".toList]
        emptyC1State).global
      (cache_key Ecosystem.git "u".toList "refs/heads/main".toList
        "f1".toList)).isSome :=
  C1_manifest_reference_in_global
    [C1Op.pull "proj".toList
      ⟨Ecosystem.git, "u".toList, "u".toList, "refs/heads/main".toList⟩
      "f1".toList]
    (by
      intro o ho
      have ho2 : o = C1Op.pull "proj".toList
          ⟨Ecosystem.git, "u".toList, "u".toList, "refs/heads/main".toList⟩
          "f1".toList :=
        List.mem_singleton.mp ho
      subst ho2
      refine ⟨⟨by decide, by decide, by decide⟩, ?_,
        ⟨by decide, by decide, by decide⟩⟩
      show ∀ seg ∈ splitChar '/' ("refs/heads/main".toList),
        seg ≠ [] ∧ seg ≠ ['.']
      decide)
    "proj".toList
    (depSpecOf ⟨Ecosystem.git, "u".toList, "u".toList, "refs/heads/main".toList⟩)
    (link_path Ecosystem.git "u".toList "refs/heads/main".toList,
      cache_key Ecosystem.git "u".toList "refs/heads/main".toList "f1".toList)
    rfl
